import Mathlib

/-!
# Verification of PyTorch decomposition and meta-shape rules

A shallow embedding of `torch/_decomp/decompositions.py` and
`torch/_meta_registrations.py`.  Tensors are modelled as a shape (a list of
naturals) together with a total data function from index lists to an ordered
field (`ℚ` for exact claims, `ℝ` where the source takes square roots).
Elementwise primitives broadcast exactly as the ATen primitives do; shape
violations are preconditions of the theorems, mirroring eager-mode errors.
-/

namespace Spec2Proof

/-! ## Index and shape infrastructure -/

/-- All valid indices of a shape, in row-major order. -/
def allIdx : List ℕ → List (List ℕ)
  | [] => [[]]
  | n :: rest => (List.range n).flatMap (fun j => (allIdx rest).map (fun i => j :: i))

/-- `ValidIdx i s`: `i` is a coordinate-wise valid index into shape `s`. -/
def ValidIdx (i s : List ℕ) : Prop := List.Forall₂ (· < ·) i s

instance (i s : List ℕ) : Decidable (ValidIdx i s) := by
  unfold ValidIdx; infer_instance

theorem mem_allIdx {i s : List ℕ} : i ∈ allIdx s ↔ ValidIdx i s := by
  induction s generalizing i with
  | nil =>
    simp only [allIdx, List.mem_singleton, ValidIdx]
    constructor
    · rintro rfl; exact List.Forall₂.nil
    · intro h; cases h; rfl
  | cons n rest ih =>
    simp only [allIdx, List.mem_flatMap, List.mem_map, List.mem_range, ValidIdx]
    constructor
    · rintro ⟨j, hj, i', hi', rfl⟩
      exact List.Forall₂.cons hj (ih.mp hi')
    · intro h
      cases h with
      | cons hlt htail => exact ⟨_, hlt, _, ih.mpr htail, rfl⟩

/-- Number of elements of a shape. -/
def numel (s : List ℕ) : ℕ := s.prod

/-- Combine one pair of dimensions under broadcasting (size-1 dims stretch). -/
def bDim (n m : ℕ) : ℕ := if n = 1 then m else if m = 1 then n else max n m

/-- Broadcast two shapes: align from the right, stretch size-1 dimensions.
Mismatching dimensions are a precondition violation (the model then returns
a junk shape; theorems carry compatibility hypotheses instead). -/
def broadcastShapes (s t : List ℕ) : List ℕ :=
  if s.length ≤ t.length then
    t.take (t.length - s.length) ++ List.zipWith bDim s (t.drop (t.length - s.length))
  else
    s.take (s.length - t.length) ++ List.zipWith bDim (s.drop (s.length - t.length)) t

/-- Project an index of a broadcast result shape back to an index of one
operand's shape `s`: drop the extra leading coordinates, and use coordinate 0
wherever `s` has a size-1 (stretched) dimension. -/
def bIdx (s i : List ℕ) : List ℕ :=
  List.zipWith (fun n j => if n = 1 then 0 else j) s (i.drop (i.length - s.length))

theorem bDim_self (n : ℕ) : bDim n n = n := by
  unfold bDim; split <;> simp_all

theorem broadcastShapes_self (s : List ℕ) : broadcastShapes s s = s := by
  unfold broadcastShapes
  simp only [le_refl, if_true, Nat.sub_self, List.take_zero, List.drop_zero,
    List.nil_append]
  induction s with
  | nil => rfl
  | cons n rest ih => simpa [bDim_self] using ih

theorem zip_stretch_valid {i s : List ℕ} (h : ValidIdx i s) :
    List.zipWith (fun n j => if n = 1 then 0 else j) s i = i := by
  induction h with
  | nil => rfl
  | cons hlt htail ih =>
    simp only [List.zipWith_cons_cons, ih]
    congr 1
    split
    · omega
    · rfl

/-- For a valid index, projecting onto the same shape is the identity. -/
theorem bIdx_self {i s : List ℕ} (h : ValidIdx i s) : bIdx s i = i := by
  unfold bIdx
  rw [List.Forall₂.length_eq h, Nat.sub_self, List.drop_zero]
  exact zip_stretch_valid h

/-! ## The tensor model

A tensor is a shape plus a total data function on index lists.  The data
function is only meaningful on valid indices; primitives read operands
through `bIdx`, which realizes broadcasting. -/

structure Tensor (α : Type) where
  shape : List ℕ
  data : List ℕ → α

/-- Elementwise unary primitive (also covers tensor-scalar arithmetic). -/
def Tensor.map {α β : Type} (f : α → β) (t : Tensor α) : Tensor β :=
  ⟨t.shape, fun i => f (t.data i)⟩

/-- Elementwise binary primitive with ATen broadcasting. -/
def map2 {α β γ : Type} (f : α → β → γ) (a : Tensor α) (b : Tensor β) : Tensor γ :=
  ⟨broadcastShapes a.shape b.shape,
   fun i => f (a.data (bIdx a.shape i)) (b.data (bIdx b.shape i))⟩

/-- `torch.where(cond, x, y)` with three-way broadcasting. -/
def torchWhere {α : Type} (cond : Tensor Bool) (x y : Tensor α) : Tensor α :=
  ⟨broadcastShapes (broadcastShapes cond.shape x.shape) y.shape,
   fun i =>
     if cond.data (bIdx cond.shape i) then x.data (bIdx x.shape i)
     else y.data (bIdx y.shape i)⟩

/-- A 0-dimensional tensor holding one value. -/
def Tensor.scalar {α : Type} (v : α) : Tensor α := ⟨[], fun _ => v⟩

/-- `Tensor.new_zeros(shape)`. -/
def new_zeros {α : Type} [Zero α] (s : List ℕ) : Tensor α := ⟨s, fun _ => 0⟩

/-- `torch.zeros_like`. -/
def zeros_like {α : Type} [Zero α] (t : Tensor α) : Tensor α := ⟨t.shape, fun _ => 0⟩

/-- Bool mask promoted to a numeric tensor of zeros and ones (what multiplying
by a bool tensor does in ATen). -/
def maskToNum {α : Type} [Zero α] [One α] (m : Tensor Bool) : Tensor α :=
  ⟨m.shape, fun i => if m.data i then 1 else 0⟩

/-- `Tensor.unsqueeze(pos)` for a non-negative position. -/
def Tensor.unsqueeze {α : Type} (t : Tensor α) (pos : ℕ) : Tensor α :=
  ⟨t.shape.insertIdx pos 1, fun i => t.data (i.eraseIdx pos)⟩

/-- Row-major linearization of an index. -/
def linIdx : List ℕ → List ℕ → ℕ
  | [], _ => 0
  | _ :: s, i => i.headD 0 * numel s + linIdx s i.tail

/-- Row-major delinearization of a flat offset. -/
def delinIdx : List ℕ → ℕ → List ℕ
  | [], _ => []
  | _ :: s, k => k / numel s :: delinIdx s (k % numel s)

/-- `Tensor.reshape` (same number of elements is a precondition). -/
def Tensor.reshape {α : Type} (t : Tensor α) (s : List ℕ) : Tensor α :=
  ⟨s, fun i => t.data (delinIdx t.shape (linIdx s i))⟩

/-- `torch.scatter(t, dim, index, value)` with a scalar source value:
position `i` receives `v` exactly when some valid position `j` of `index`
agrees with `i` outside `dim` and stores `i`'s coordinate at `dim`.
Out-of-range index values are an eager-mode error (a precondition here). -/
def Tensor.scatterVal {α : Type} (t : Tensor α) (dim : ℕ) (index : Tensor ℤ)
    (v : α) : Tensor α :=
  ⟨t.shape, fun i =>
    if (allIdx index.shape).any (fun j =>
        j.eraseIdx dim == i.eraseIdx dim && index.data j == (i.getD dim 0 : ℤ))
    then v else t.data i⟩

/-! ### Reductions over dimension lists -/

/-- The sub-shape of `s` at the positions listed in `ds` (walking positions
from `p`). -/
def selDims (ds : List ℕ) : ℕ → List ℕ → List ℕ
  | _, [] => []
  | p, n :: rest =>
    if p ∈ ds then n :: selDims ds (p + 1) rest else selDims ds (p + 1) rest

/-- The sub-shape of `s` away from the positions listed in `ds`. -/
def dropDims (ds : List ℕ) : ℕ → List ℕ → List ℕ
  | _, [] => []
  | p, n :: rest =>
    if p ∈ ds then dropDims ds (p + 1) rest else n :: dropDims ds (p + 1) rest

/-- Merge an outer index `i` (anything at reduced positions is ignored) with
an inner index `inner` enumerating the reduced positions, walking positions
from `p`. -/
def mergeIdx (ds : List ℕ) : ℕ → List ℕ → List ℕ → List ℕ
  | _, [], _ => []
  | p, x :: xs, inner =>
    if p ∈ ds then inner.headD 0 :: mergeIdx ds (p + 1) xs inner.tail
    else x :: mergeIdx ds (p + 1) xs inner

/-- Rebuild a keepdim-style index from a reduced-rank index by inserting `0`
at each reduced position; recursion structured over the original shape. -/
def expandIdx (ds : List ℕ) : ℕ → List ℕ → List ℕ → List ℕ
  | _, [], _ => []
  | p, _ :: srest, i =>
    if p ∈ ds then 0 :: expandIdx ds (p + 1) srest i
    else i.headD 0 :: expandIdx ds (p + 1) srest i.tail

/-- The keepdim output shape: reduced positions become 1. -/
def keepShape (ds : List ℕ) : ℕ → List ℕ → List ℕ
  | _, [] => []
  | p, n :: rest => (if p ∈ ds then 1 else n) :: keepShape ds (p + 1) rest

section FieldOps

variable {α : Type} [LinearOrderedField α]

/-- `aten.sum.dim_IntList(t, dims, keepdim)`: joint sum over the fiber of the
listed dimensions; an empty dimension list reduces over every dimension. -/
def Tensor.sum (t : Tensor α) (dims : List ℕ) (keepdim : Bool) : Tensor α :=
  let ds := if dims = [] then List.range t.shape.length else dims
  if keepdim then ⟨keepShape ds 0 t.shape, fun i =>
    ((allIdx (selDims ds 0 t.shape)).map (fun inner => t.data (mergeIdx ds 0 i inner))).sum⟩
  else ⟨dropDims ds 0 t.shape, fun i =>
    ((allIdx (selDims ds 0 t.shape)).map
      (fun inner => t.data (mergeIdx ds 0 (expandIdx ds 0 t.shape i) inner))).sum⟩

/-- `torch.mean` over all elements (0-dimensional result). -/
def Tensor.meanAll (t : Tensor α) : Tensor α :=
  ⟨[], fun _ => ((allIdx t.shape).map t.data).sum / (numel t.shape : α)⟩

/-- `torch.sum` over all elements (0-dimensional result). -/
def Tensor.sumAll (t : Tensor α) : Tensor α :=
  ⟨[], fun _ => ((allIdx t.shape).map t.data).sum⟩

/-- `aten.amax(t, dims, keepdim)`; reducing an empty fiber is an eager-mode
error, the model then returns the value at the probe index. -/
def Tensor.amax (t : Tensor α) (dims : List ℕ) (keepdim : Bool) : Tensor α :=
  let ds := if dims = [] then List.range t.shape.length else dims
  let red : List ℕ → α := fun i =>
    match (allIdx (selDims ds 0 t.shape)).map (fun inner => t.data (mergeIdx ds 0 i inner)) with
    | [] => t.data i
    | x :: xs => xs.foldl max x
  if keepdim then ⟨keepShape ds 0 t.shape, red⟩
  else ⟨dropDims ds 0 t.shape, fun i => red (expandIdx ds 0 t.shape i)⟩

/-- `aten.amin(t, dims, keepdim)`. -/
def Tensor.amin (t : Tensor α) (dims : List ℕ) (keepdim : Bool) : Tensor α :=
  let ds := if dims = [] then List.range t.shape.length else dims
  let red : List ℕ → α := fun i =>
    match (allIdx (selDims ds 0 t.shape)).map (fun inner => t.data (mergeIdx ds 0 i inner)) with
    | [] => t.data i
    | x :: xs => xs.foldl min x
  if keepdim then ⟨keepShape ds 0 t.shape, red⟩
  else ⟨dropDims ds 0 t.shape, fun i => red (expandIdx ds 0 t.shape i)⟩

end FieldOps

/-! ## Decomposition rules (`torch/_decomp/decompositions.py`)

Value-level models.  The `pw_cast_for_opmath` / `reduction_complex_to_real`
wrappers only move values between dtypes and are modelled separately
(`type_casts` below); the rules themselves are embedded unwrapped, which is
exact on the rational/real values. -/

def Reduction.NONE : ℕ := 0

def Reduction.MEAN : ℕ := 1

def Reduction.SUM : ℕ := 2

section Decomp

variable {α : Type} [LinearOrderedField α]

/-- src `apply_loss_reduction`. -/
def apply_loss_reduction (loss : Tensor α) (reduction : ℕ) : Tensor α :=
  if reduction = Reduction.MEAN then loss.meanAll
  else if reduction = Reduction.SUM then loss.sumAll
  else loss

/-- src `hardsigmoid`: `clamp(clamp(self + 3, min=0), max=6) / 6`. -/
def hardsigmoid (self : Tensor α) : Tensor α :=
  ((((self.map (· + 3)).map (fun v => max v 0)).map (fun v => min v 6)).map (· / 6))

/-- src `hardsigmoid_backward`:
`where((self > -3.0) & (self < 3.0), grad_output * (1.0/6.0), grad_output.new_zeros(()))`. -/
def hardsigmoid_backward (grad_output self : Tensor α) : Tensor α :=
  torchWhere
    (map2 (fun a b => a && b)
      (self.map (fun v => decide ((-3 : α) < v)))
      (self.map (fun v => decide (v < (3 : α)))))
    (grad_output.map (· * (1 / 6)))
    (new_zeros [])

/-- src `gelu_backward`.  `tanhP`, `erfP`, `expP` stand for the primitive
operators `torch.tanh`, `torch.erf`, `torch.exp` (external collaborators). -/
def gelu_backward (tanhP erfP expP : α → α) (grad self : Tensor α)
    (approximate : String := "none") : Tensor α :=
  let M_SQRT2 : α := 1.41421356237309504880
  let M_SQRT1_2 : α := 0.70710678118654752440
  let M_2_SQRTPI : α := 1.12837916709551257390
  if approximate = "tanh" then
    let kBeta : α := M_SQRT2 * M_2_SQRTPI * 0.5
    let kKappa : α := 0.044715
    let x_sq := map2 (· * ·) self self
    let x_cube := map2 (· * ·) x_sq self
    let inner := map2 (fun a b => kBeta * (a + kKappa * b)) self x_cube
    let tanh_inner := inner.map tanhP
    let left := self.map (fun v => 0.5 * v)
    let right := tanh_inner.map (fun v => 1 + v)
    let left_derivative := right.map (fun v => 0.5 * v)
    let tanh_derivative := map2 (fun a b => 1 - a * b) tanh_inner tanh_inner
    let inner_derivative := x_sq.map (fun v => kBeta * (1 + 3 * kKappa * v))
    let right_derivative := map2 (· * ·) (map2 (· * ·) left tanh_derivative) inner_derivative
    map2 (· * ·) grad (map2 (· + ·) left_derivative right_derivative)
  else
    let kAlpha : α := M_SQRT1_2
    let kBeta : α := M_2_SQRTPI * M_SQRT1_2 * 0.5
    let cdf := self.map (fun x => 0.5 * (1 + erfP (x * kAlpha)))
    let pdf := self.map (fun x => kBeta * expP (x * x * (-0.5)))
    map2 (· * ·) grad (map2 (· + ·) cdf (map2 (· * ·) self pdf))

/-- src `_softmax_backward_data`:
`new_grad = grad_output * output; new_grad - output * sum(new_grad, dim, keepdim=True)`.
`input_dtype` is carried but (as in the value model) unused. -/
def _softmax_backward_data (grad_output output : Tensor α) (dim : ℕ)
    (input_dtype : ℕ) : Tensor α :=
  let new_grad := map2 (· * ·) grad_output output
  map2 (· - ·) new_grad (map2 (· * ·) output (new_grad.sum [dim] true))

/-- src `binary_cross_entropy_backward`. -/
def binary_cross_entropy_backward (grad_output self target : Tensor α)
    (weight : Option (Tensor α) := none) (reduction : ℕ := Reduction.MEAN) :
    Tensor α :=
  let EPSILON : α := 1e-12
  let result := map2 (· / ·)
    (map2 (· * ·) grad_output (map2 (· - ·) self target))
    ((map2 (· * ·) self (self.map (fun v => 1 - v))).map (fun v => max v EPSILON))
  let result := match weight with
    | some w => map2 (· * ·) result w
    | none => result
  if reduction = Reduction.MEAN then result.map (· / (numel self.shape : α))
  else result

/-- src `_nll_loss_backward` (shared core of `nll_loss_backward` and
`nll_loss2d_backward`). -/
def _nll_loss_backward (grad_output self : Tensor α) (target : Tensor ℤ)
    (weight : Option (Tensor α)) (reduction : ℕ) (ignore_index : ℤ)
    (total_weight : Tensor α) : Tensor α :=
  let channel_dim : ℕ := if self.shape.length < 2 then 0 else 1
  let grad_output :=
    if reduction = Reduction.MEAN then map2 (· / ·) grad_output total_weight
    else grad_output
  let target := target.unsqueeze channel_dim
  let grad_input := zeros_like self
  let grad_input := grad_input.scatterVal channel_dim target (-1)
  let grad_output :=
    if grad_input.shape.length > grad_output.shape.length ∧ grad_output.shape.length > 0
    then grad_output.unsqueeze channel_dim
    else grad_output
  let grad_output := match weight with
    | some w =>
      let new_shape := (List.replicate self.shape.length 1).set channel_dim
        (w.shape.getD 0 0)
      map2 (· * ·) grad_output (w.reshape new_shape)
    | none => grad_output
  let grad_output :=
    if ignore_index ≥ 0 then
      map2 (· * ·) grad_output
        (maskToNum (target.map (fun v => decide (v ≠ ignore_index))))
    else grad_output
  map2 (· * ·) grad_input grad_output

/-- src `nll_loss_backward`: the assertion preamble, then `_nll_loss_backward`.
A failed assertion is `none`. -/
def nll_loss_backward (grad_output self : Tensor α) (target : Tensor ℤ)
    (weight : Option (Tensor α)) (reduction : ℕ) (ignore_index : ℤ)
    (total_weight : Tensor α) : Option (Tensor α) :=
  if ¬ self.shape.length ≤ 2 then none
  else if ¬ target.shape.length ≤ 1 then none
  else
    let no_batch_dim := self.shape.length = 1 ∧ target.shape.length = 0
    let batch_ok : Bool := match self.shape, target.shape with
      | n :: _, m :: _ => n == m
      | _, _ => false
    if ¬ (no_batch_dim ∨ batch_ok = true) then none
    else if ¬ numel total_weight.shape = 1 then none
    else if ¬ (weight.isNone = true ∨
        (weight.elim 0 (fun w => numel w.shape)) = self.shape.getLastD 0) then none
    else if reduction = Reduction.NONE ∧ self.shape.length = 2 then
      if grad_output.shape.length = 1 ∧ grad_output.shape.getD 0 0 = self.shape.getD 0 0
      then some (_nll_loss_backward grad_output self target weight reduction
        ignore_index total_weight)
      else none
    else
      if grad_output.shape.length ≤ 1 ∧ numel grad_output.shape = 1
      then some (_nll_loss_backward grad_output self target weight reduction
        ignore_index total_weight)
      else none

/-- src `native_layer_norm_backward`.  Dtype casts preserve values in this
model, so `*_cast` bindings are the inputs themselves. -/
def native_layer_norm_backward (grad_out input : Tensor α)
    (normalized_shape : List ℕ) (mean rstd : Tensor α)
    (weight bias : Option (Tensor α)) (output_mask : List Bool) :
    Option (Tensor α) × Option (Tensor α) × Option (Tensor α) :=
  let input_shape := input.shape
  let input_ndim := input.shape.length
  let grad_out_cast := grad_out
  let input_cast := input
  let weight_cast := weight
  let bias_cast := bias
  let axis := input_ndim - normalized_shape.length
  let inner_dims := input_shape.drop axis
  let outer_dims := input_shape.take axis
  let inner_dim_indices := (List.range input_ndim).filter (fun i => decide (axis ≤ i))
  let outer_dim_indices := (List.range input_ndim).filter (fun i => decide (i < axis))
  let N := numel inner_dims
  let M := numel outer_dims
  if M ≤ 0 ∨ N ≤ 0 then
    (some (new_zeros input_shape), some (new_zeros (input_shape.drop axis)),
      some (new_zeros (input_shape.drop axis)))
  else
    let x_hat := map2 (· * ·) (map2 (· - ·) input_cast mean) rstd
    let grad_x_hat := match weight_cast with
      | some w => map2 (· * ·) grad_out_cast w
      | none => grad_out_cast
    let a := grad_x_hat.map (· * (N : α))
    let b := grad_x_hat.sum inner_dim_indices true
    let c1 := map2 (· * ·) grad_x_hat x_hat
    let c2 := c1.sum inner_dim_indices true
    let c3 := map2 (· * ·) x_hat c2
    let inner := map2 (· - ·) (map2 (· - ·) a b) c3
    let d_input : Option (Tensor α) :=
      if output_mask.getD 0 false then
        some (map2 (· * ·) (rstd.map (· / (N : α))) inner)
      else none
    let d_weight : Option (Tensor α) :=
      if output_mask.getD 1 false then
        match weight_cast with
        | some _ =>
          if 0 < outer_dim_indices.length then
            some ((map2 (· * ·) grad_out_cast x_hat).sum outer_dim_indices false)
          else some (map2 (· * ·) grad_out_cast x_hat)
        | none => none
      else none
    let d_bias : Option (Tensor α) :=
      if output_mask.getD 2 false then
        match bias_cast with
        | some _ =>
          if 0 < outer_dim_indices.length then
            some (grad_out_cast.sum outer_dim_indices false)
          else some grad_out_cast
        | none => none
      else none
    (d_input, d_weight, d_bias)

end Decomp

/-! ### Vector norm (`norm`), over `ℝ` because of `sqrt`/`pow` -/

/-- A float-valued norm order: finite rational, `inf`, or `-inf`. -/
inductive NormOrd : Type
  | fin (q : ℚ)
  | inf
  | ninf

/-- `p % 2.0 == 0.0` for a finite float order: `p` is an even integer. -/
def isEvenOrd (q : ℚ) : Bool := q.den == 1 && q.num % 2 == 0

/-- src `norm`'s inner `fast_pow`. -/
noncomputable def fast_pow (x : Tensor ℝ) (ord : ℚ) : Tensor ℝ :=
  if ord = 1 then x
  else if ord = 2 then x.map (fun v => v * v)
  else if ord = 1 / 2 then x.map Real.sqrt
  else x.map (fun v => v ^ (ord : ℝ))

/-- src `norm` (decomposition of `aten.norm.Scalar` / `aten.norm.ScalarOpt_dim`).
`selfIsFloat` stands for `utils.is_float_dtype(self.dtype)`. -/
noncomputable def norm (self : Tensor ℝ) (selfIsFloat : Bool)
    (p : NormOrd := NormOrd.fin 2) (dim : List ℕ := []) (keepdim : Bool := false) :
    Tensor ℝ :=
  match p with
  | NormOrd.fin q =>
    if q = 0 then
      (maskToNum (self.map (fun v => decide (v ≠ 0))) : Tensor ℝ).sum dim keepdim
    else
      let self := if ¬ (isEvenOrd q = true ∧ selfIsFloat = true) then
        self.map (fun v => |v|) else self
      fast_pow ((fast_pow self q).sum dim keepdim) (1 / q)
  | NormOrd.inf => (self.map (fun v => |v|)).amax dim keepdim
  | NormOrd.ninf => (self.map (fun v => |v|)).amin dim keepdim

/-! ## Advanced-indexing meta rule (`torch/_meta_registrations.py`, `meta_index_Tensor`) -/

/-- `new_empty(shape)`: metadata-only tensor; values are uninitialized and
modelled as 0. -/
def new_empty {α : Type} [Zero α] (s : List ℕ) : Tensor α := ⟨s, fun _ => 0⟩

/-- `Tensor.permute(perm)`. -/
def Tensor.permute {α : Type} (t : Tensor α) (perm : List ℕ) : Tensor α :=
  ⟨perm.map (fun d => t.shape.getD d 0),
   fun i => t.data ((List.range t.shape.length).map (fun d => i.getD (perm.indexOf d) 0))⟩

/-- Index-tensor dtypes admitted by `meta_index_Tensor` (`torch.long`,
`torch.int8`, `torch.bool`). -/
inductive IxDType : Type
  | long
  | int8
  | bool
deriving DecidableEq

/-- An index tensor: dtype, shape, and (for the byte/bool expansion path,
which calls `nonzero`) the boolean mask values. -/
structure IxTensor where
  dtype : IxDType
  shape : List ℕ
  bdata : List ℕ → Bool

/-- Number of `true` entries of a mask — the row count of `index.nonzero()`. -/
def countTrue (ix : IxTensor) : ℕ := ((allIdx ix.shape).filter ix.bdata).length

/-- One step of `meta_index_Tensor`'s first loop (`checkIndexTensorTypes` and
`expandTensors`): a `None` or integer index contributes its own (shape) entry;
a byte/bool index is checked against the self shape and expands into one
1-D integer index of length `nonzero` per mask dimension. -/
def expandOne (selfShape : List ℕ) (acc : List (Option (List ℕ)))
    (index : Option IxTensor) : Option (List (Option (List ℕ))) :=
  match index with
  | none => some (acc ++ [none])
  | some ix =>
    match ix.dtype with
    | IxDType.long => some (acc ++ [some ix.shape])
    | _ =>
      let k := acc.length
      if ¬ k + ix.shape.length ≤ selfShape.length then none
      else if ¬ (List.range ix.shape.length).all
          (fun j => ix.shape.getD j 0 == selfShape.getD (k + j) 0) then none
      else some (acc ++ (List.range ix.shape.length).map (fun _ => some [countTrue ix]))

/-- `hasContiguousSubspace` state 2: a null was seen after the non-null run;
any further non-null tensor breaks contiguity. -/
def contigAfterRun {γ : Type} : List (Option γ) → Bool
  | [] => true
  | some _ :: _ => false
  | none :: rest => contigAfterRun rest

/-- `hasContiguousSubspace` state 1: inside the non-null run. -/
def contigInRun {γ : Type} : List (Option γ) → Bool
  | [] => true
  | some _ :: rest => contigInRun rest
  | none :: rest => contigAfterRun rest

/-- `hasContiguousSubspace` state 0 (the entry state): all non-null index
tensors are adjacent. -/
def hasContigSubspace {γ : Type} : List (Option γ) → Bool
  | [] => true
  | none :: rest => hasContigSubspace rest
  | some _ :: rest => contigInRun rest

/-- The final shape-composition loop of `meta_index_Tensor`, walking the
(self) shape and the index list in parallel with the three accumulators
`before_shape`, `replacement_shape`, `after_shape`. -/
def composeGo : List ℕ → List (Option (List ℕ)) → List ℕ → List ℕ → List ℕ →
    List ℕ × List ℕ × List ℕ
  | _, [], before, repl, after => (before, repl, after)
  | [], _ :: _, before, repl, after => (before, repl, after)
  | n :: srest, ix :: irest, before, repl, after =>
    match ix with
    | none =>
      if repl ≠ [] then composeGo srest irest before repl (after ++ [n])
      else composeGo srest irest (before ++ [n]) repl after
    | some sh => composeGo srest irest before sh after

/-- The final shape-composition loop of `meta_index_Tensor`: returns
`(before_shape, replacement_shape, after_shape)`. -/
def composeLoop (shape : List ℕ) (indices : List (Option (List ℕ))) :
    List ℕ × List ℕ × List ℕ :=
  composeGo shape indices [] [] []

/-- The accumulator step of `meta_index_Tensor`'s broadcast loop
(`for s in … if s is not None: shape = infer_size(shape, s)`). -/
def shapeFold : List ℕ → Option (List ℕ) → List ℕ
  | acc, some sh => broadcastShapes acc sh
  | acc, none => acc

/-- src `meta_index_Tensor`.  A failed `check` is `none`. -/
def meta_index_Tensor (self : Tensor ℚ) (indices : List (Option IxTensor)) :
    Option (Tensor ℚ) :=
  if indices.isEmpty then none
  else match indices.foldlM (expandOne self.shape) [] with
  | none => none
  | some result =>
    if ¬ result.length ≤ self.shape.length then none
    else
      let common := result.foldl shapeFold ([] : List ℕ)
      let indices := result.map (fun s => s.map (fun _ => common))
      let indices := indices ++ List.replicate (self.shape.length - indices.length) none
      if hasContigSubspace indices then
        let st := composeLoop self.shape indices
        some (new_empty (st.1 ++ st.2.1 ++ st.2.2))
      else
        let dims := ((indices.enum.filter (fun p => p.2.isSome)).map (fun p => p.1)) ++
          ((indices.enum.filter (fun p => p.2.isNone)).map (fun p => p.1))
        let transposed_indices :=
          (indices.filter (fun x => x.isSome)) ++ (indices.filter (fun x => x.isNone))
        let permuted := self.permute dims
        let st := composeLoop permuted.shape transposed_indices
        some (new_empty (st.1 ++ st.2.1 ++ st.2.2))

/-! ## The type-promotion wrapper (`type_casts`)

Argument structures are pytrees: leaves are tensors (dtype plus an opaque
payload standing for the tensor's identity/values — `x.to(dtype)` preserves
it) or non-tensor scalars; inner nodes are sequences, tuples and mappings. -/

/-- Tensor dtypes. -/
inductive DType : Type
  | bool | int8 | int16 | int32 | int64
  | float16 | bfloat16 | float32 | float64
  | complex32 | complex64 | complex128
deriving DecidableEq

/-- Kind of a non-tensor (Python scalar) argument. -/
inductive ScalarKind : Type
  | bool | int | float | complex
deriving DecidableEq

/-- A pytree leaf. -/
inductive Leaf : Type
  | tensor (dtype : DType) (payload : ℕ)
  | scalar (kind : ScalarKind) (payload : ℕ)
deriving DecidableEq

mutual
inductive PyTree : Type
  | leaf (l : Leaf)
  | listNode (xs : PyForest)
  | tupleNode (xs : PyForest)
  | dictNode (keys : List String) (xs : PyForest)
deriving DecidableEq
inductive PyForest : Type
  | nil
  | cons (x : PyTree) (xs : PyForest)
deriving DecidableEq
end

mutual
/-- `tree_map f` on a pytree. -/
def treeMap (f : Leaf → Leaf) : PyTree → PyTree
  | .leaf l => .leaf (f l)
  | .listNode xs => .listNode (treeMapF f xs)
  | .tupleNode xs => .tupleNode (treeMapF f xs)
  | .dictNode ks xs => .dictNode ks (treeMapF f xs)
/-- `tree_map f` on a forest of children. -/
def treeMapF (f : Leaf → Leaf) : PyForest → PyForest
  | .nil => .nil
  | .cons x xs => .cons (treeMap f x) (treeMapF f xs)
end

mutual
/-- `tree_flatten`: the leaves, in structure order. -/
def treeLeaves : PyTree → List Leaf
  | .leaf l => [l]
  | .listNode xs => treeLeavesF xs
  | .tupleNode xs => treeLeavesF xs
  | .dictNode _ xs => treeLeavesF xs
/-- `tree_flatten` on a forest of children. -/
def treeLeavesF : PyForest → List Leaf
  | .nil => []
  | .cons x xs => treeLeaves x ++ treeLeavesF xs
end

/-- The type-promotion policy enumeration (`ELEMENTWISE_TYPE_PROMOTION_KIND`). -/
inductive PromotionKind : Type
  | DEFAULT | COMPLEX_TO_FLOAT | INT_TO_FLOAT
deriving DecidableEq

/-- Dtype category: bool < integer < floating < complex. -/
def DType.category : DType → ℕ
  | .bool => 0
  | .int8 | .int16 | .int32 | .int64 => 1
  | .float16 | .bfloat16 | .float32 | .float64 => 2
  | .complex32 | .complex64 | .complex128 => 3

/-- Width level inside a category. -/
def DType.level : DType → ℕ
  | .bool => 0
  | .int8 => 1 | .int16 => 2 | .int32 => 3 | .int64 => 4
  | .float16 => 1 | .bfloat16 => 1 | .float32 => 2 | .float64 => 3
  | .complex32 => 1 | .complex64 => 2 | .complex128 => 3

/-- Category of a scalar argument. -/
def ScalarKind.category : ScalarKind → ℕ
  | .bool => 0 | .int => 1 | .float => 2 | .complex => 3

/-- Default dtype of a category (for scalar-driven promotion). -/
def defaultOfCategory : ℕ → DType
  | 0 => DType.bool
  | 1 => DType.int64
  | 2 => DType.float32
  | _ => DType.complex64

/-- Pairwise standard promotion of two tensor dtypes: the higher category
wins keeping its width; within a category the wider type wins, and the
incomparable half-precision pair `float16`/`bfloat16` promotes to `float32`. -/
def promote2 (a b : DType) : DType :=
  if a.category < b.category then b
  else if b.category < a.category then a
  else if a.level < b.level then b
  else if b.level < a.level then a
  else if a = b then a
  else DType.float32

/-- The real part dtype of a complex dtype (identity otherwise). -/
def toRealDType : DType → DType
  | .complex32 => DType.float16
  | .complex64 => DType.float32
  | .complex128 => DType.float64
  | d => d

/-- An argument to promotion-dtype derivation: a tensor (with dtype) or a
non-tensor scalar (with kind). -/
inductive PromoArg : Type
  | tens (d : DType)
  | scal (k : ScalarKind)
deriving DecidableEq

/-- Modelled from the spec: `utils.elementwise_dtypes` (external collaborator,
not under `src/`).  Derives `(computation_dtype, result_dtype)` from the
arguments: standard numeric promotion across the tensor dtypes, a scalar of
strictly higher category bumps to that category's default dtype; the policy
then adjusts: `DEFAULT` keeps the promoted dtype, `COMPLEX_TO_FLOAT` makes
the result dtype the matching-precision real type, `INT_TO_FLOAT` turns
boolean/integer inputs into the default floating type.  Fails (`none`) when
no tensor argument is present. -/
def elementwise_dtypes (args : List PromoArg) (kind : PromotionKind) :
    Option (DType × DType) :=
  let tensorDtypes := args.filterMap (fun a => match a with
    | PromoArg.tens d => some d
    | PromoArg.scal _ => none)
  match tensorDtypes with
  | [] => none
  | d :: ds =>
    let promoted := ds.foldl promote2 d
    let scalCat := (args.filterMap (fun a => match a with
      | PromoArg.scal k => some k.category
      | PromoArg.tens _ => none)).foldl max 0
    let promoted := if promoted.category < scalCat then defaultOfCategory scalCat
      else promoted
    match kind with
    | PromotionKind.DEFAULT => some (promoted, promoted)
    | PromotionKind.COMPLEX_TO_FLOAT => some (promoted, toRealDType promoted)
    | PromotionKind.INT_TO_FLOAT =>
      if promoted.category ≤ 1 then some (DType.float32, DType.float32)
      else some (promoted, promoted)

/-- `increase_prec` / `decrease_prec`: cast a tensor leaf to `d` (preserving
its payload); leave a non-tensor leaf unchanged. -/
def castTo (d : DType) : Leaf → Leaf
  | Leaf.tensor _ p => Leaf.tensor d p
  | l => l

/-- Is this leaf a tensor (the `isinstance(x, Tensor)` filter)? -/
def isTensorLeaf : Leaf → Bool
  | Leaf.tensor _ _ => true
  | Leaf.scalar _ _ => false

/-- The promotion argument a leaf contributes. -/
def leafToPromoArg : Leaf → PromoArg
  | Leaf.tensor d _ => PromoArg.tens d
  | Leaf.scalar k _ => PromoArg.scal k

/-- The dtype-pair computation inside src `type_casts` (lines 31–36): flatten
`(args, kwargs)`, keep only the tensor leaves (`isinstance(x, Tensor)`), and
hand exactly those to `elementwise_dtypes`. -/
def derivePromotion (type_promotion : PromotionKind) (args kwargs : PyTree) :
    Option (DType × DType) :=
  elementwise_dtypes
    (((treeLeaves (PyTree.tupleNode (.cons args (.cons kwargs .nil)))).filter
      isTensorLeaf).map leafToPromoArg) type_promotion

/-- src `type_casts`: derive `(computation_dtype, result_dtype)` from the
tensor leaves of `(args, kwargs)`, cast tensor arguments up, call `f`, cast
tensors in the result down.  Failure of the derivation (no tensor argument)
is `none`. -/
def type_casts (f : PyTree → PyTree → PyTree) (type_promotion : PromotionKind)
    (args kwargs : PyTree) : Option PyTree :=
  match derivePromotion type_promotion args kwargs with
  | none => none
  | some (computation_dtype, result_dtype) =>
    let r := f (treeMap (castTo computation_dtype) args)
      (treeMap (castTo computation_dtype) kwargs)
    some (treeMap (castTo result_dtype) r)

/-! ## Shared lemmas -/

theorem bDim_one_right (n : ℕ) : bDim n 1 = n := by
  unfold bDim; split <;> simp_all

theorem broadcastShapes_nil_right (s : List ℕ) : broadcastShapes s [] = s := by
  unfold broadcastShapes
  cases s with
  | nil => rfl
  | cons n rest => simp

theorem broadcastShapes_nil_left (s : List ℕ) : broadcastShapes [] s = s := by
  unfold broadcastShapes
  simp

theorem bIdx_nil (i : List ℕ) : bIdx [] i = [] := rfl

/-- A shape `t` that agrees with `s` except for stretched (size-1) entries
broadcasts with `s` to `s` (from the right). -/
theorem broadcastShapes_degen_right {s t : List ℕ}
    (h : List.Forall₂ (fun m n => m = n ∨ m = 1) t s) : broadcastShapes s t = s := by
  unfold broadcastShapes
  rw [List.Forall₂.length_eq h, Nat.sub_self, List.take_zero, List.drop_zero,
    if_pos le_rfl, List.nil_append]
  induction h with
  | nil => rfl
  | cons hd tl ih =>
    simp only [List.zipWith_cons_cons, ih]
    congr 1
    rcases hd with rfl | rfl
    · exact bDim_self _
    · exact bDim_one_right _

/-- Symmetric version: the degenerate shape on the left. -/
theorem broadcastShapes_degen_left {s t : List ℕ}
    (h : List.Forall₂ (fun m n => m = n ∨ m = 1) t s) : broadcastShapes t s = s := by
  unfold broadcastShapes
  rw [List.Forall₂.length_eq h, Nat.sub_self, List.take_zero, List.drop_zero,
    if_pos le_rfl, List.nil_append]
  induction h with
  | nil => rfl
  | cons hd tl ih =>
    simp only [List.zipWith_cons_cons, ih]
    congr 1
    rcases hd with rfl | rfl
    · exact bDim_self _
    · unfold bDim; split <;> simp_all

/-- Reading a degenerate-shape operand at a valid index of the full shape:
stretched coordinates collapse to 0, the others stay. -/
theorem bIdx_degen {i s t : List ℕ} (hv : ValidIdx i s)
    (h : List.Forall₂ (fun m n => m = n ∨ m = 1) t s) :
    bIdx t i = List.zipWith (fun m j => if m = 1 then 0 else j) t i := by
  unfold bIdx
  rw [List.Forall₂.length_eq h, List.Forall₂.length_eq hv, Nat.sub_self,
    List.drop_zero]

theorem validIdx_getD {i s : List ℕ} (h : ValidIdx i s) {j : ℕ}
    (hj : j < s.length) : i.getD j 0 < s.getD j 0 := by
  induction h generalizing j with
  | nil => simp at hj
  | cons hd tl ih =>
    cases j with
    | zero => simpa using hd
    | succ j => simpa using ih (by simpa using hj)

theorem validIdx_length {i s : List ℕ} (h : ValidIdx i s) : i.length = s.length :=
  List.Forall₂.length_eq h

@[simp] theorem map2_shape {α β γ : Type} (f : α → β → γ) (a : Tensor α)
    (b : Tensor β) : (map2 f a b).shape = broadcastShapes a.shape b.shape := rfl

@[simp] theorem map2_data {α β γ : Type} (f : α → β → γ) (a : Tensor α)
    (b : Tensor β) (i : List ℕ) :
    (map2 f a b).data i = f (a.data (bIdx a.shape i)) (b.data (bIdx b.shape i)) := rfl

@[simp] theorem Tensor.map_shape {α β : Type} (f : α → β) (t : Tensor α) :
    (t.map f).shape = t.shape := rfl

@[simp] theorem Tensor.map_data {α β : Type} (f : α → β) (t : Tensor α)
    (i : List ℕ) : (t.map f).data i = f (t.data i) := rfl

theorem list_map_congr {α β : Type} {l : List α} {f g : α → β}
    (h : ∀ x ∈ l, f x = g x) : l.map f = l.map g := by
  induction l with
  | nil => rfl
  | cons x xs ih =>
    simp only [List.map_cons]
    rw [h x (by simp), ih (fun y hy => h y (by simp [hy]))]

/-! ## C10 — hardsigmoid backward -/

/-- **C10**: `hardsigmoid_backward` returns `grad_output * (1/6)` exactly on
the strict interval `-3 < self < 3` and zero everywhere else — in particular
exactly zero at the boundary points `self = -3` and `self = 3` — even though
the forward `hardsigmoid` is linear, with value `(self+3)/6`, on the closed
interval `[-3, 3]` including those points. -/
theorem hardsigmoid_backward_boundary {grad_output self : Tensor ℚ}
    (hsh : grad_output.shape = self.shape) {i : List ℕ}
    (hi : ValidIdx i self.shape) :
    ((hardsigmoid_backward grad_output self).data i =
      if -3 < self.data i ∧ self.data i < 3 then grad_output.data i * (1 / 6)
      else 0) ∧
    ((self.data i = -3 ∨ self.data i = 3) →
      (hardsigmoid_backward grad_output self).data i = 0) ∧
    (-3 ≤ self.data i → self.data i ≤ 3 →
      (hardsigmoid self).data i = (self.data i + 3) / 6) := by
  have hmain : (hardsigmoid_backward grad_output self).data i =
      if -3 < self.data i ∧ self.data i < 3 then grad_output.data i * (1 / 6)
      else 0 := by
    simp only [hardsigmoid_backward, torchWhere, map2, Tensor.map, new_zeros,
      broadcastShapes_self, hsh, bIdx_self hi, Bool.and_eq_true, decide_eq_true_eq]
  refine ⟨hmain, ?_, ?_⟩
  · intro hb
    rw [hmain, if_neg]
    rcases hb with hb | hb <;> rw [hb] <;> simp
  · intro h1 h2
    simp only [hardsigmoid, Tensor.map]
    rw [max_eq_left (by linarith), min_eq_left (by linarith)]

/-- Witness for C10 at `grad_output = [6]`, `self = [0]`, index `[0]`. -/
theorem hardsigmoid_backward_boundary_witness :
    ((hardsigmoid_backward (⟨[1], fun _ => 6⟩ : Tensor ℚ)
        (⟨[1], fun _ => 0⟩ : Tensor ℚ)).data [0] =
      if -3 < (0 : ℚ) ∧ (0 : ℚ) < 3 then (6 : ℚ) * (1 / 6) else 0) ∧
    (((0 : ℚ) = -3 ∨ (0 : ℚ) = 3) →
      (hardsigmoid_backward (⟨[1], fun _ => 6⟩ : Tensor ℚ)
        (⟨[1], fun _ => 0⟩ : Tensor ℚ)).data [0] = 0) ∧
    (-3 ≤ (0 : ℚ) → (0 : ℚ) ≤ 3 →
      (hardsigmoid (⟨[1], fun _ => 0⟩ : Tensor ℚ)).data [0] = ((0 : ℚ) + 3) / 6) :=
  @hardsigmoid_backward_boundary ⟨[1], fun _ => 6⟩ ⟨[1], fun _ => 0⟩ rfl [0] (by decide)

/-! ## C7 — binary cross-entropy backward -/

/-- **C7**: `binary_cross_entropy_backward` divides by
`clamp(self * (1 - self), min = 1e-12)`: the divisor is bounded below by the
positive epsilon `1e-12` for every rational input value (including `self = 0`
and `self = 1`), so the division-by-zero case is unreachable; the unreduced
value is `grad_output * (self - target)` over that clamped divisor (times the
optional weight); and under MEAN reduction the result is additionally divided
by the element count of `self`. -/
theorem binary_cross_entropy_backward_safe {grad_output self target : Tensor ℚ}
    {weight : Option (Tensor ℚ)}
    (hg : grad_output.shape = self.shape) (ht : target.shape = self.shape)
    (hw : ∀ w ∈ weight, w.shape = self.shape)
    {i : List ℕ} (hi : ValidIdx i self.shape) :
    ((0 : ℚ) < max (self.data i * (1 - self.data i)) (1e-12 : ℚ) ∧
      (1e-12 : ℚ) ≤ max (self.data i * (1 - self.data i)) (1e-12 : ℚ)) ∧
    ((binary_cross_entropy_backward grad_output self target weight
        Reduction.SUM).data i =
      grad_output.data i * (self.data i - target.data i) /
        max (self.data i * (1 - self.data i)) (1e-12 : ℚ) *
        (match weight with | some w => w.data i | none => 1)) ∧
    ((binary_cross_entropy_backward grad_output self target weight
        Reduction.MEAN).data i =
      (binary_cross_entropy_backward grad_output self target weight
        Reduction.SUM).data i / (numel self.shape : ℚ)) := by
  have heps : (0 : ℚ) < (1e-12 : ℚ) := by norm_num
  refine ⟨⟨lt_max_of_lt_right heps, le_max_right _ _⟩, ?_, ?_⟩
  · cases weight with
    | none =>
      simp [binary_cross_entropy_backward, map2, Tensor.map, Reduction.SUM,
        Reduction.MEAN, broadcastShapes_self, hg, ht, bIdx_self hi]
    | some w =>
      have hws := hw w (by rfl)
      simp [binary_cross_entropy_backward, map2, Tensor.map, Reduction.SUM,
        Reduction.MEAN, broadcastShapes_self, hg, ht, hws, bIdx_self hi]
  · cases weight with
    | none =>
      simp [binary_cross_entropy_backward, map2, Tensor.map, Reduction.SUM,
        Reduction.MEAN, broadcastShapes_self, hg, ht, bIdx_self hi]
    | some w =>
      have hws := hw w (by rfl)
      simp [binary_cross_entropy_backward, map2, Tensor.map, Reduction.SUM,
        Reduction.MEAN, broadcastShapes_self, hg, ht, hws, bIdx_self hi]

/-- Witness for C7 at `grad_output = [1,1]`, `self = [0,1]`, `target = [1,0]`,
no weight, index `[0]` (`self = 0` exercises the clamp). -/
theorem binary_cross_entropy_backward_safe_witness :
    (((0 : ℚ) < max ((0 : ℚ) * (1 - (0 : ℚ))) (1e-12 : ℚ) ∧
      (1e-12 : ℚ) ≤ max ((0 : ℚ) * (1 - (0 : ℚ))) (1e-12 : ℚ))) ∧
    ((binary_cross_entropy_backward (⟨[2], fun _ => 1⟩ : Tensor ℚ)
        (⟨[2], fun j => if j = [0] then 0 else 1⟩ : Tensor ℚ)
        (⟨[2], fun j => if j = [0] then 1 else 0⟩ : Tensor ℚ) none
        Reduction.SUM).data [0] =
      (1 : ℚ) * ((0 : ℚ) - 1) / max ((0 : ℚ) * (1 - (0 : ℚ))) (1e-12 : ℚ) * 1) ∧
    ((binary_cross_entropy_backward (⟨[2], fun _ => 1⟩ : Tensor ℚ)
        (⟨[2], fun j => if j = [0] then 0 else 1⟩ : Tensor ℚ)
        (⟨[2], fun j => if j = [0] then 1 else 0⟩ : Tensor ℚ) none
        Reduction.MEAN).data [0] =
      (binary_cross_entropy_backward (⟨[2], fun _ => 1⟩ : Tensor ℚ)
        (⟨[2], fun j => if j = [0] then 0 else 1⟩ : Tensor ℚ)
        (⟨[2], fun j => if j = [0] then 1 else 0⟩ : Tensor ℚ) none
        Reduction.SUM).data [0] / (numel [2] : ℚ)) := by
  have h := @binary_cross_entropy_backward_safe
    (⟨[2], fun _ => 1⟩ : Tensor ℚ)
    (⟨[2], fun j => if j = [0] then 0 else 1⟩ : Tensor ℚ)
    (⟨[2], fun j => if j = [0] then 1 else 0⟩ : Tensor ℚ)
    none rfl rfl (by intro w hw; cases hw) [0] (by decide)
  simpa using h

/-! ## C6 — gelu backward mode selection -/

/-- **C6** (amended): `gelu_backward` performs no validation of the
`approximate` string: any value other than `"tanh"` — recognized or not —
selects the erf-based exact derivative, identically to `"none"`; only the
exact string `"tanh"` selects the tanh-approximation derivative, so the two
recognized modes are never conflated with each other, but an unrecognized
string is silently conflated with the exact mode instead of failing. -/
theorem gelu_backward_no_validation (tanhP erfP expP : ℚ → ℚ)
    (grad self : Tensor ℚ) (approximate : String)
    (h : approximate ≠ "tanh") :
    gelu_backward tanhP erfP expP grad self approximate =
      gelu_backward tanhP erfP expP grad self "none" := by
  rw [gelu_backward, gelu_backward, if_neg h, if_neg (by decide)]

/-- Witness for C6's amended theorem at `approximate = "banana"`. -/
theorem gelu_backward_no_validation_witness :
    gelu_backward (fun x => x) (fun x => x) (fun x => x)
        (Tensor.scalar (1 : ℚ)) (Tensor.scalar 0) "banana" =
      gelu_backward (fun x => x) (fun x => x) (fun x => x)
        (Tensor.scalar (1 : ℚ)) (Tensor.scalar 0) "none" :=
  gelu_backward_no_validation _ _ _ _ _ "banana" (by decide)

/-- **C6** (counterexample to the claim as stated): called with the
unrecognized mode string `"banana"`, `gelu_backward` does not fail with a
validation error — the source has no check — but returns an ordinary tensor
result (here the erf-path value `1/2` at `self = 0`, `grad = 1`, with
identity functions standing for the `tanh`/`erf`/`exp` primitives). -/
theorem gelu_backward_bogus_returns_result :
    (gelu_backward (fun x => x) (fun x => x) (fun x => x)
      (Tensor.scalar (1 : ℚ)) (Tensor.scalar 0) "banana").data [] = 1 / 2 := by
  have h : ¬ ("banana" = "tanh") := by decide
  simp only [gelu_backward]
  rw [if_neg h]
  norm_num [map2, Tensor.map, Tensor.scalar]

/-! ## Single-dimension reduction lemmas -/

theorem allIdx_singleton (m : ℕ) : allIdx [m] = (List.range m).map (fun j => [j]) := by
  simp only [allIdx]
  induction List.range m with
  | nil => rfl
  | cons x xs ih => simp_all [List.flatMap_cons]

theorem mergeIdx_gt_single {d : ℕ} :
    ∀ (p : ℕ) (xs inner : List ℕ), d < p → mergeIdx [d] p xs inner = xs
  | _, [], _, _ => rfl
  | p, x :: xs, inner, h => by
    have hp : ¬ p ∈ [d] := by simp; omega
    simp only [mergeIdx, if_neg hp]
    rw [mergeIdx_gt_single (p + 1) xs inner (by omega)]

theorem mergeIdx_single {d : ℕ} :
    ∀ (p : ℕ) (xs : List ℕ) (k : ℕ), p ≤ d → mergeIdx [d] p xs [k] = xs.set (d - p) k
  | _, [], _, _ => by simp [mergeIdx]
  | p, x :: xs, k, h => by
    by_cases hp : p = d
    · subst hp
      have : p ∈ [p] := by simp
      simp only [mergeIdx, if_pos this, List.headD, List.tail]
      rw [mergeIdx_gt_single (p + 1) xs [] (by omega), Nat.sub_self]
      rfl
    · have hplt : p < d := lt_of_le_of_ne h hp
      have hmem : ¬ p ∈ [d] := by simp; omega
      simp only [mergeIdx, if_neg hmem]
      rw [mergeIdx_single (p + 1) xs k (by omega)]
      obtain ⟨e, he⟩ : ∃ e, d - p = e + 1 := ⟨d - p - 1, by omega⟩
      rw [he, show d - (p + 1) = e by omega]
      rfl

theorem keepShape_gt {d : ℕ} : ∀ (p : ℕ) (s : List ℕ), d < p → keepShape [d] p s = s
  | _, [], _ => rfl
  | p, n :: s, h => by
    have hmem : ¬ p ∈ [d] := by simp; omega
    simp only [keepShape, if_neg hmem]
    rw [keepShape_gt (p + 1) s (by omega)]

theorem keepShape_single {d : ℕ} :
    ∀ (p : ℕ) (s : List ℕ), p ≤ d → keepShape [d] p s = s.set (d - p) 1
  | _, [], _ => by simp [keepShape]
  | p, n :: s, h => by
    by_cases hp : p = d
    · subst hp
      have : p ∈ [p] := by simp
      simp only [keepShape, if_pos this, Nat.sub_self]
      rw [keepShape_gt (p + 1) s (by omega)]
      rfl
    · have hmem : ¬ p ∈ [d] := by simp; omega
      simp only [keepShape, if_neg hmem]
      rw [keepShape_single (p + 1) s (by omega)]
      obtain ⟨e, he⟩ : ∃ e, d - p = e + 1 := ⟨d - p - 1, by omega⟩
      rw [he, show d - (p + 1) = e by omega]
      rfl

theorem selDims_gt_single {d : ℕ} :
    ∀ (p : ℕ) (s : List ℕ), d < p → selDims [d] p s = []
  | _, [], _ => rfl
  | p, n :: s, h => by
    have hmem : ¬ p ∈ [d] := by simp; omega
    simp only [selDims, if_neg hmem]
    exact selDims_gt_single (p + 1) s (by omega)

theorem selDims_single {d : ℕ} :
    ∀ (p : ℕ) (s : List ℕ), p ≤ d → d - p < s.length →
      selDims [d] p s = [s.getD (d - p) 0]
  | _, [], _, hlen => by simp at hlen
  | p, n :: s, h, hlen => by
    by_cases hp : p = d
    · subst hp
      have : p ∈ [p] := by simp
      simp only [selDims, if_pos this, Nat.sub_self]
      rw [selDims_gt_single (p + 1) s (by omega)]
      rfl
    · have hmem : ¬ p ∈ [d] := by simp; omega
      simp only [selDims, if_neg hmem]
      obtain ⟨e, he⟩ : ∃ e, d - p = e + 1 := ⟨d - p - 1, by omega⟩
      rw [selDims_single (p + 1) s (by omega) (by simp at hlen; omega)]
      rw [show d - (p + 1) = e by omega, he]
      rfl

theorem set_one_degen {s : List ℕ} {d : ℕ} :
    List.Forall₂ (fun m n => m = n ∨ m = 1) (s.set d 1) s := by
  induction s generalizing d with
  | nil => exact List.Forall₂.nil
  | cons n rest ih =>
    cases d with
    | zero => exact List.Forall₂.cons (Or.inr rfl) (List.forall₂_same.mpr (by simp))
    | succ d => exact List.Forall₂.cons (Or.inl rfl) ih

theorem validIdx_set {i s : List ℕ} {d k : ℕ} (hi : ValidIdx i (s.set d 1))
    (hk : k < s.getD d 0) (hd : d < s.length) : ValidIdx (i.set d k) s := by
  induction s generalizing i d with
  | nil => simp at hd
  | cons n rest ih =>
    cases d with
    | zero =>
      cases hi with
      | cons h0 htail =>
        exact List.Forall₂.cons (by simpa using hk) (by simpa using htail)
    | succ d =>
      cases hi with
      | cons h0 htail =>
        exact List.Forall₂.cons h0 (ih htail (by simpa using hk) (by simpa using hd))

theorem bIdx_set_one {i s : List ℕ} {d : ℕ} (hv : ValidIdx i s)
    (hd : d < s.length) : bIdx (s.set d 1) i = i.set d 0 := by
  unfold bIdx
  rw [List.length_set, List.Forall₂.length_eq hv, Nat.sub_self, List.drop_zero]
  induction hv generalizing d with
  | nil => simp at hd
  | cons hlt htail ih =>
    cases d with
    | zero =>
      simp only [List.set_cons_zero, List.zipWith_cons_cons, if_pos rfl]
      rw [zip_stretch_valid htail]
      rfl
    | succ d =>
      simp only [List.set_cons_succ, List.zipWith_cons_cons]
      rw [ih (by simpa using hd)]
      congr 1
      split
      · omega
      · rfl

section SumLemmas

variable {α : Type} [LinearOrderedField α]

theorem sum_single_shape (t : Tensor α) (d : ℕ) :
    (t.sum [d] true).shape = t.shape.set d 1 := by
  have h0 : (t.sum [d] true).shape = keepShape [d] 0 t.shape := rfl
  rw [h0, keepShape_single 0 t.shape (Nat.zero_le d), Nat.sub_zero]

theorem sum_single_data (t : Tensor α) {d : ℕ} (hd : d < t.shape.length)
    (i : List ℕ) :
    (t.sum [d] true).data i =
      ((List.range (t.shape.getD d 0)).map (fun k => t.data (i.set d k))).sum := by
  have h0 : (t.sum [d] true).data i =
      ((allIdx (selDims [d] 0 t.shape)).map
        (fun inner => t.data (mergeIdx [d] 0 i inner))).sum := rfl
  rw [h0, selDims_single 0 t.shape (Nat.zero_le d) (by simpa using hd)]
  rw [Nat.sub_zero, allIdx_singleton, List.map_map]
  refine congrArg List.sum (list_map_congr fun k _ => ?_)
  show t.data (mergeIdx [d] 0 i [k]) = t.data (i.set d k)
  rw [mergeIdx_single 0 i k (Nat.zero_le d), Nat.sub_zero]

theorem list_sum_map_sub (l : List ℕ) (f g : ℕ → α) :
    (l.map (fun k => f k - g k)).sum = (l.map f).sum - (l.map g).sum := by
  induction l with
  | nil => simp
  | cons x xs ih => simp [ih]; ring

theorem list_sum_map_mul_right (l : List ℕ) (f : ℕ → α) (c : α) :
    (l.map (fun k => f k * c)).sum = (l.map f).sum * c := by
  induction l with
  | nil => simp
  | cons x xs ih => simp [ih]; ring

end SumLemmas

/-! ## C5 — softmax backward sums to zero along the reduced dimension -/

/-- **C5**: for matching-shape `grad_output` and a valid softmax `output`
over dimension `d` (non-negative entries, summing to 1 along `d`), the
result of `_softmax_backward_data` sums to zero along `d` at every
position. -/
theorem final_sum (l : List ℕ) (A B : ℕ → ℚ) (C : ℚ)
    (hA : (l.map A).sum = C) (hB : (l.map B).sum = 1) :
    (l.map (fun k => A k - B k * C)).sum = 0 := by
  have h1 := list_sum_map_sub l A (fun k => B k * C)
  rw [h1, list_sum_map_mul_right l B C, hA, hB, one_mul, sub_self]

theorem softmax_backward_sum_zero {grad_output output : Tensor ℚ}
    {d input_dtype : ℕ}
    (hsh : grad_output.shape = output.shape) (hd : d < output.shape.length)
    (hnn : ∀ j ∈ allIdx output.shape, 0 ≤ output.data j)
    (hsum : ∀ j ∈ allIdx (output.shape.set d 1), (output.sum [d] true).data j = 1)
    {i : List ℕ} (hi : ValidIdx i (output.shape.set d 1)) :
    ((_softmax_backward_data grad_output output d input_dtype).sum [d] true).data i
      = 0 := by
  have hng_shape : (map2 (· * ·) grad_output output).shape = output.shape := by
    rw [map2_shape, hsh, broadcastShapes_self]
  have hd' : d < (map2 (· * ·) grad_output output).shape.length := by
    rw [hng_shape]; exact hd
  have hSdata : ∀ j' : List ℕ,
      ((map2 (· * ·) grad_output output).sum [d] true).data j' =
        ((List.range (output.shape.getD d 0)).map
          (fun k => (map2 (· * ·) grad_output output).data (j'.set d k))).sum := by
    intro j'
    rw [sum_single_data _ hd' j', hng_shape]
  have hS_shape : ((map2 (· * ·) grad_output output).sum [d] true).shape
      = output.shape.set d 1 := by
    rw [sum_single_shape, hng_shape]
  have hP_shape : (map2 (· * ·) output
      ((map2 (· * ·) grad_output output).sum [d] true)).shape = output.shape := by
    rw [map2_shape, hS_shape]
    exact broadcastShapes_degen_right set_one_degen
  have hres_shape : (_softmax_backward_data grad_output output d input_dtype).shape
      = output.shape := by
    simp only [_softmax_backward_data]
    rw [map2_shape, hng_shape, hP_shape, broadcastShapes_self]
  have hdR : d < (_softmax_backward_data grad_output output d input_dtype).shape.length := by
    rw [hres_shape]; exact hd
  have hCval : ((map2 (· * ·) grad_output output).sum [d] true).data (i.set d 0) =
      ((List.range (output.shape.getD d 0)).map
        (fun k' => grad_output.data (i.set d k') * output.data (i.set d k'))).sum := by
    rw [hSdata (i.set d 0)]
    refine congrArg List.sum (list_map_congr ?_)
    intro k' hk'
    have hjv' : ValidIdx (i.set d k') output.shape :=
      validIdx_set hi (List.mem_range.mp hk') hd
    rw [List.set_set]
    simp only [map2_data, hsh, bIdx_self hjv']
  have hB : ((List.range (output.shape.getD d 0)).map
      (fun k => output.data (i.set d k))).sum = 1 := by
    have h1 := hsum i (mem_allIdx.mpr hi)
    rw [sum_single_data output hd i] at h1
    exact h1
  rw [sum_single_data _ hdR i, hres_shape]
  have hpt : ∀ k ∈ List.range (output.shape.getD d 0),
      (_softmax_backward_data grad_output output d input_dtype).data (i.set d k) =
        grad_output.data (i.set d k) * output.data (i.set d k) -
          output.data (i.set d k) *
            ((List.range (output.shape.getD d 0)).map
              (fun k' => grad_output.data (i.set d k') * output.data (i.set d k'))).sum := by
    intro k hk
    have hjv : ValidIdx (i.set d k) output.shape :=
      validIdx_set hi (List.mem_range.mp hk) hd
    have hbc : broadcastShapes output.shape (output.shape.set d 1) = output.shape :=
      broadcastShapes_degen_right set_one_degen
    simp only [_softmax_backward_data, map2_data, map2_shape, hsh,
      broadcastShapes_self, hS_shape, hbc, bIdx_set_one hjv hd, List.set_set,
      bIdx_self hjv, hCval]
  rw [list_map_congr hpt]
  exact final_sum (List.range (output.shape.getD d 0))
    (fun k => grad_output.data (i.set d k) * output.data (i.set d k))
    (fun k => output.data (i.set d k))
    (((List.range (output.shape.getD d 0)).map
      (fun k' => grad_output.data (i.set d k') * output.data (i.set d k'))).sum)
    rfl hB

/-- Witness for C5: `grad_output = [7]`, `output = [1]` (a valid softmax
along dimension 0 of a single-class tensor), position `[0]`. -/
theorem softmax_backward_sum_zero_witness :
    (((_softmax_backward_data (⟨[1], fun _ => 7⟩ : Tensor ℚ)
        (⟨[1], fun _ => 1⟩ : Tensor ℚ) 0 0).sum [0] true).data [0]) = 0 :=
  @softmax_backward_sum_zero
    (⟨[1], fun _ => 7⟩ : Tensor ℚ) (⟨[1], fun _ => 1⟩ : Tensor ℚ) 0 0 rfl
    (by decide)
    (by intro j _; norm_num)
    (by intro j _; simp [Tensor.sum, selDims, allIdx, mergeIdx, List.range_succ])
    [0] (by decide)

/-! ## C1 / C2 — the type-promotion wrapper -/

mutual
/-- `isCastOf d orig new`: `new` has the same pytree structure as `orig`,
every tensor leaf kept its payload but now carries dtype `d`, and every
non-tensor (scalar) leaf is unchanged. -/
def isCastOf (d : DType) : PyTree → PyTree → Bool
  | PyTree.leaf (Leaf.tensor _ p0), PyTree.leaf (Leaf.tensor d1 p1) =>
    d1 == d && p1 == p0
  | PyTree.leaf (Leaf.scalar k0 p0), PyTree.leaf (Leaf.scalar k1 p1) =>
    k1 == k0 && p1 == p0
  | PyTree.listNode xs, PyTree.listNode ys => isCastOfF d xs ys
  | PyTree.tupleNode xs, PyTree.tupleNode ys => isCastOfF d xs ys
  | PyTree.dictNode ks xs, PyTree.dictNode ks1 ys => ks == ks1 && isCastOfF d xs ys
  | _, _ => false
/-- Forest version of `isCastOf`. -/
def isCastOfF (d : DType) : PyForest → PyForest → Bool
  | PyForest.nil, PyForest.nil => true
  | PyForest.cons x xs, PyForest.cons y ys => isCastOf d x y && isCastOfF d xs ys
  | _, _ => false
end

mutual
theorem isCastOf_treeMap (d : DType) :
    ∀ t : PyTree, isCastOf d t (treeMap (castTo d) t) = true
  | PyTree.leaf l => by cases l <;> simp [treeMap, castTo, isCastOf]
  | PyTree.listNode xs => by
    simpa [treeMap, isCastOf] using isCastOfF_treeMapF d xs
  | PyTree.tupleNode xs => by
    simpa [treeMap, isCastOf] using isCastOfF_treeMapF d xs
  | PyTree.dictNode ks xs => by
    simp [treeMap, isCastOf, isCastOfF_treeMapF d xs]
theorem isCastOfF_treeMapF (d : DType) :
    ∀ xs : PyForest, isCastOfF d xs (treeMapF (castTo d) xs) = true
  | PyForest.nil => rfl
  | PyForest.cons x xs => by
    simp [treeMapF, isCastOfF, isCastOf_treeMap d x, isCastOfF_treeMapF d xs]
end

theorem filterMap_promo_ne_nil {l : List Leaf} (hne : l ≠ [])
    (hall : ∀ x ∈ l, isTensorLeaf x = true) :
    ((l.map leafToPromoArg).filterMap fun a => match a with
      | PromoArg.tens d => some d
      | PromoArg.scal _ => none) ≠ [] := by
  cases l with
  | nil => exact absurd rfl hne
  | cons x xs =>
    have hx := hall x (by simp)
    cases x with
    | tensor d p => simp [leafToPromoArg]
    | scalar k p => simp [isTensorLeaf] at hx

theorem elementwise_dtypes_some (args : List PromoArg) (kind : PromotionKind)
    (h : (args.filterMap fun a => match a with
      | PromoArg.tens d => some d
      | PromoArg.scal _ => none) ≠ []) :
    (elementwise_dtypes args kind).isSome = true := by
  obtain ⟨d, ds, hlist⟩ : ∃ d ds, (args.filterMap fun a => match a with
      | PromoArg.tens d => some d
      | PromoArg.scal _ => none) = d :: ds := by
    cases hl : (args.filterMap fun a => match a with
        | PromoArg.tens d => some d
        | PromoArg.scal _ => none) with
    | nil => exact absurd hl h
    | cons d ds => exact ⟨d, ds, rfl⟩
  simp only [elementwise_dtypes, hlist]
  cases kind <;> simp [apply_ite Option.isSome]

/-- **C1**: for every target function `f`, every promotion policy, and
arguments containing at least one tensor, the wrapper `type_casts` succeeds
and returns `f` applied to the arguments with every tensor leaf (recursively
through sequences, tuples and mappings) cast to the derived computation
dtype and with non-tensor leaves untouched, the tensors of the result being
recast (recursively) to the derived result dtype. -/
theorem type_casts_spec (f : PyTree → PyTree → PyTree) (kind : PromotionKind)
    (args kwargs : PyTree)
    (h : (treeLeaves (PyTree.tupleNode (.cons args (.cons kwargs .nil)))).filter
      isTensorLeaf ≠ []) :
    ∃ cd rd, derivePromotion kind args kwargs = some (cd, rd) ∧
      type_casts f kind args kwargs =
        some (treeMap (castTo rd)
          (f (treeMap (castTo cd) args) (treeMap (castTo cd) kwargs))) ∧
      isCastOf cd args (treeMap (castTo cd) args) = true ∧
      isCastOf cd kwargs (treeMap (castTo cd) kwargs) = true ∧
      (∀ r : PyTree, isCastOf rd r (treeMap (castTo rd) r) = true) := by
  have hall : ∀ x ∈ (treeLeaves (PyTree.tupleNode
      (.cons args (.cons kwargs .nil)))).filter isTensorLeaf,
      isTensorLeaf x = true := fun x hx => List.of_mem_filter hx
  have hsome : (derivePromotion kind args kwargs).isSome = true :=
    elementwise_dtypes_some _ kind (filterMap_promo_ne_nil h hall)
  obtain ⟨⟨cd, rd⟩, hpr⟩ := Option.isSome_iff_exists.mp hsome
  refine ⟨cd, rd, hpr, ?_, isCastOf_treeMap cd args, isCastOf_treeMap cd kwargs,
    fun r => isCastOf_treeMap rd r⟩
  simp only [type_casts, hpr]

/-- Witness for C1: one `float16` tensor argument under the DEFAULT policy. -/
theorem type_casts_spec_witness :
    ∃ cd rd, derivePromotion PromotionKind.DEFAULT
        (PyTree.tupleNode (.cons (.leaf (.tensor DType.float16 5)) .nil))
        (PyTree.dictNode [] .nil) = some (cd, rd) ∧
      type_casts (fun a _ => a) PromotionKind.DEFAULT
          (PyTree.tupleNode (.cons (.leaf (.tensor DType.float16 5)) .nil))
          (PyTree.dictNode [] .nil) =
        some (treeMap (castTo rd)
          ((fun a _ => a)
            (treeMap (castTo cd)
              (PyTree.tupleNode (.cons (.leaf (.tensor DType.float16 5)) .nil)))
            (treeMap (castTo cd) (PyTree.dictNode [] .nil)))) ∧
      isCastOf cd (PyTree.tupleNode (.cons (.leaf (.tensor DType.float16 5)) .nil))
        (treeMap (castTo cd)
          (PyTree.tupleNode (.cons (.leaf (.tensor DType.float16 5)) .nil))) = true ∧
      isCastOf cd (PyTree.dictNode [] .nil)
        (treeMap (castTo cd) (PyTree.dictNode [] .nil)) = true ∧
      (∀ r : PyTree, isCastOf rd r (treeMap (castTo rd) r) = true) :=
  type_casts_spec (fun a _ => a) PromotionKind.DEFAULT
    (PyTree.tupleNode (.cons (.leaf (.tensor DType.float16 5)) .nil))
    (PyTree.dictNode [] .nil) (by decide)

mutual
theorem treeLeaves_treeMap (g : Leaf → Leaf) :
    ∀ t : PyTree, treeLeaves (treeMap g t) = (treeLeaves t).map g
  | PyTree.leaf l => rfl
  | PyTree.listNode xs => by
    simp [treeMap, treeLeaves, treeLeavesF_treeMapF g xs]
  | PyTree.tupleNode xs => by
    simp [treeMap, treeLeaves, treeLeavesF_treeMapF g xs]
  | PyTree.dictNode ks xs => by
    simp [treeMap, treeLeaves, treeLeavesF_treeMapF g xs]
theorem treeLeavesF_treeMapF (g : Leaf → Leaf) :
    ∀ xs : PyForest, treeLeavesF (treeMapF g xs) = (treeLeavesF xs).map g
  | PyForest.nil => rfl
  | PyForest.cons x xs => by
    simp [treeMapF, treeLeavesF, treeLeaves_treeMap g x, treeLeavesF_treeMapF g xs]
end

theorem filter_scalar_map_castTo (d : DType) (l : List Leaf) :
    (l.map (castTo d)).filter (fun x => !isTensorLeaf x) =
      l.filter (fun x => !isTensorLeaf x) := by
  induction l with
  | nil => rfl
  | cons x xs ih =>
    cases x with
    | tensor d0 p0 => simpa [castTo, isTensorLeaf] using ih
    | scalar k0 p0 => simpa [castTo, isTensorLeaf] using ih

/-- **C2** (amended): the wrapper's promotion-dtype derivation uses only the
tensor leaves of the argument structure — two argument structures with the
same tensor leaves derive the same `(computation_dtype, result_dtype)`, so
scalar (non-tensor) arguments do not participate — while the casting step
passes every scalar leaf to the wrapped function unchanged. -/
theorem type_casts_scalars_uncast (kind : PromotionKind)
    (args kwargs args' kwargs' : PyTree)
    (h : (treeLeaves (PyTree.tupleNode (.cons args (.cons kwargs .nil)))).filter
        isTensorLeaf =
      (treeLeaves (PyTree.tupleNode (.cons args' (.cons kwargs' .nil)))).filter
        isTensorLeaf) :
    derivePromotion kind args kwargs = derivePromotion kind args' kwargs' ∧
    ∀ (d : DType) (t : PyTree),
      (treeLeaves (treeMap (castTo d) t)).filter (fun l => !isTensorLeaf l) =
        (treeLeaves t).filter (fun l => !isTensorLeaf l) := by
  constructor
  · simp only [derivePromotion]
    rw [h]
  · intro d t
    rw [treeLeaves_treeMap (castTo d) t, filter_scalar_map_castTo]

/-- Witness for C2's amended theorem: dropping an `int` scalar argument does
not change the derived dtypes. -/
theorem type_casts_scalars_uncast_witness :
    derivePromotion PromotionKind.DEFAULT
        (PyTree.tupleNode (.cons (.leaf (.tensor DType.float32 1))
          (.cons (.leaf (.scalar ScalarKind.int 9)) .nil)))
        (PyTree.dictNode [] .nil) =
      derivePromotion PromotionKind.DEFAULT
        (PyTree.tupleNode (.cons (.leaf (.tensor DType.float32 1)) .nil))
        (PyTree.dictNode [] .nil) ∧
    ∀ (d : DType) (t : PyTree),
      (treeLeaves (treeMap (castTo d) t)).filter (fun l => !isTensorLeaf l) =
        (treeLeaves t).filter (fun l => !isTensorLeaf l) :=
  type_casts_scalars_uncast PromotionKind.DEFAULT
    (PyTree.tupleNode (.cons (.leaf (.tensor DType.float32 1))
      (.cons (.leaf (.scalar ScalarKind.int 9)) .nil)))
    (PyTree.dictNode [] .nil)
    (PyTree.tupleNode (.cons (.leaf (.tensor DType.float32 1)) .nil))
    (PyTree.dictNode [] .nil) (by decide)

/-- **C2** (counterexample to the claim as stated): with an `int64` tensor
and a Python-float scalar argument under the DEFAULT policy, the wrapper
derives `(int64, int64)` — the identity-returning wrapped function's tensor
comes back still `int64` — whereas the promotion rule applied to the tensors
*together with* the scalar yields `float32`; the scalar therefore did not
participate in the derivation. -/
theorem type_casts_scalar_excluded :
    type_casts (fun a _ => a) PromotionKind.DEFAULT
        (PyTree.tupleNode (.cons (.leaf (.tensor DType.int64 0))
          (.cons (.leaf (.scalar ScalarKind.float 0)) .nil)))
        (PyTree.dictNode [] .nil) =
      some (PyTree.tupleNode (.cons (.leaf (.tensor DType.int64 0))
        (.cons (.leaf (.scalar ScalarKind.float 0)) .nil))) ∧
    elementwise_dtypes [PromoArg.tens DType.int64, PromoArg.scal ScalarKind.float]
      PromotionKind.DEFAULT = some (DType.float32, DType.float32) := by
  decide

/-! ## C8 — vector norm special cases -/

/-- The fiber of full indices reached from `i` by letting the reduced
positions `ds` range over their extents. -/
def fiberIdx (ds s i : List ℕ) : List (List ℕ) :=
  (allIdx (selDims ds 0 s)).map (fun inner => mergeIdx ds 0 i inner)

section ReduceData

variable {α : Type} [LinearOrderedField α]

theorem sum_keep_data (t : Tensor α) {ds : List ℕ} (hds : ds ≠ []) (i : List ℕ) :
    (t.sum ds true).data i = ((fiberIdx ds t.shape i).map t.data).sum := by
  simp only [Tensor.sum, if_neg hds]
  rw [fiberIdx, List.map_map]
  rfl

theorem amax_keep_data (t : Tensor α) {ds : List ℕ} (hds : ds ≠ []) (i : List ℕ) :
    (t.amax ds true).data i =
      match (fiberIdx ds t.shape i).map t.data with
      | [] => t.data i
      | v :: vs => vs.foldl max v := by
  simp only [Tensor.amax, if_neg hds]
  rw [fiberIdx, List.map_map]
  rfl

theorem amin_keep_data (t : Tensor α) {ds : List ℕ} (hds : ds ≠ []) (i : List ℕ) :
    (t.amin ds true).data i =
      match (fiberIdx ds t.shape i).map t.data with
      | [] => t.data i
      | v :: vs => vs.foldl min v := by
  simp only [Tensor.amin, if_neg hds]
  rw [fiberIdx, List.map_map]
  rfl

theorem foldl_max_mem (x : α) (l : List α) : l.foldl max x ∈ x :: l := by
  induction l generalizing x with
  | nil => simp
  | cons y ys ih =>
    simp only [List.foldl_cons]
    rcases List.mem_cons.mp (ih (max x y)) with h | h
    · rcases max_choice x y with hm | hm <;> rw [h, hm] <;> simp
    · simp [h]

theorem foldl_max_ge (x : α) (l : List α) :
    x ≤ l.foldl max x ∧ ∀ y ∈ l, y ≤ l.foldl max x := by
  induction l generalizing x with
  | nil => exact ⟨le_rfl, by simp⟩
  | cons y ys ih =>
    obtain ⟨h1, h2⟩ := ih (max x y)
    refine ⟨le_trans (le_max_left x y) h1, ?_⟩
    intro z hz
    rcases List.mem_cons.mp hz with rfl | hz
    · exact le_trans (le_max_right x z) h1
    · exact h2 z hz

theorem foldl_min_mem (x : α) (l : List α) : l.foldl min x ∈ x :: l := by
  induction l generalizing x with
  | nil => simp
  | cons y ys ih =>
    simp only [List.foldl_cons]
    rcases List.mem_cons.mp (ih (min x y)) with h | h
    · rcases min_choice x y with hm | hm <;> rw [h, hm] <;> simp
    · simp [h]

theorem foldl_min_le (x : α) (l : List α) :
    l.foldl min x ≤ x ∧ ∀ y ∈ l, l.foldl min x ≤ y := by
  induction l generalizing x with
  | nil => exact ⟨le_rfl, by simp⟩
  | cons y ys ih =>
    obtain ⟨h1, h2⟩ := ih (min x y)
    refine ⟨le_trans h1 (min_le_left x y), ?_⟩
    intro z hz
    rcases List.mem_cons.mp hz with rfl | hz
    · exact le_trans h1 (min_le_right x z)
    · exact h2 z hz

theorem sum_indicator_count (p : α → Bool) (l : List α) :
    (l.map (fun v => if p v then (1 : α) else 0)).sum = ((l.filter p).length : α) := by
  induction l with
  | nil => simp
  | cons x xs ih =>
    cases hp : p x <;> simp [hp, ih, List.filter_cons] <;> push_cast <;> ring

end ReduceData

theorem fast_pow_two (t : Tensor ℝ) : fast_pow t 2 = t.map (fun v => v * v) := by
  unfold fast_pow
  rw [if_neg (by norm_num : ¬ ((2 : ℚ) = 1)), if_pos rfl]

theorem fast_pow_half (t : Tensor ℝ) : fast_pow t (1 / 2) = t.map Real.sqrt := by
  unfold fast_pow
  rw [if_neg (by norm_num : ¬ ((1 : ℚ) / 2 = 1)),
    if_neg (by norm_num : ¬ ((1 : ℚ) / 2 = 2)), if_pos rfl]

/-- **C8**: the `norm` decomposition satisfies, at every position of the
keepdim output and over any non-empty list of reduced dimensions: with `p=0`
it counts the nonzero elements of the fiber; with `p=+inf` it is the maximum
of the absolute values (an element of the fiber's absolute values that bounds
them all); with `p=-inf` the minimum; and with `p=2` it is the Euclidean
length, the square root of the sum of squares of the absolute values. -/
theorem norm_special_cases (x : Tensor ℝ) (isF : Bool) (ds : List ℕ)
    (hds : ds ≠ []) (i : List ℕ) (hne : fiberIdx ds x.shape i ≠ []) :
    ((norm x isF (NormOrd.fin 0) ds true).data i =
      (((fiberIdx ds x.shape i).map x.data).filter (fun v => decide (v ≠ 0))).length) ∧
    ((norm x isF NormOrd.inf ds true).data i ∈
        (fiberIdx ds x.shape i).map (fun j => |x.data j|) ∧
      ∀ v ∈ (fiberIdx ds x.shape i).map (fun j => |x.data j|),
        v ≤ (norm x isF NormOrd.inf ds true).data i) ∧
    ((norm x isF NormOrd.ninf ds true).data i ∈
        (fiberIdx ds x.shape i).map (fun j => |x.data j|) ∧
      ∀ v ∈ (fiberIdx ds x.shape i).map (fun j => |x.data j|),
        (norm x isF NormOrd.ninf ds true).data i ≤ v) ∧
    ((norm x isF (NormOrd.fin 2) ds true).data i =
      Real.sqrt (((fiberIdx ds x.shape i).map (fun j => |x.data j| ^ 2)).sum)) := by
  have habs_shape : (x.map (fun v => |v|)).shape = x.shape := rfl
  refine ⟨?_, ?_, ?_, ?_⟩
  · -- p = 0: count of nonzero
    show ((maskToNum (x.map (fun v => decide (v ≠ 0))) : Tensor ℝ).sum ds true).data i = _
    rw [sum_keep_data _ hds i]
    show ((fiberIdx ds x.shape i).map
      (fun j => if decide (x.data j ≠ 0) then (1 : ℝ) else 0)).sum = _
    rw [show (fiberIdx ds x.shape i).map
        (fun j => if decide (x.data j ≠ 0) then (1 : ℝ) else 0) =
      ((fiberIdx ds x.shape i).map x.data).map
        (fun v => if decide (v ≠ 0) then (1 : ℝ) else 0) by rw [List.map_map]; rfl]
    rw [sum_indicator_count (fun v => decide (v ≠ 0)) ((fiberIdx ds x.shape i).map x.data)]
  · -- p = +inf: maximum of absolute values
    have hnorm_eq : norm x isF NormOrd.inf ds true =
        (x.map (fun v => |v|)).amax ds true := rfl
    have hfib : (fiberIdx ds x.shape i).map (x.map (fun v => |v|)).data =
        (fiberIdx ds x.shape i).map (fun j => |x.data j|) := rfl
    rw [hnorm_eq, amax_keep_data _ hds i, habs_shape, hfib]
    cases hl : (fiberIdx ds x.shape i).map (fun j => |x.data j|) with
    | nil => exact absurd (List.map_eq_nil_iff.mp hl) hne
    | cons v vs =>
      refine ⟨foldl_max_mem v vs, ?_⟩
      intro z hz
      obtain ⟨h1, h2⟩ := foldl_max_ge v vs
      rcases List.mem_cons.mp hz with rfl | hz'
      · exact h1
      · exact h2 z hz'
  · -- p = -inf: minimum of absolute values
    have hnorm_eq : norm x isF NormOrd.ninf ds true =
        (x.map (fun v => |v|)).amin ds true := rfl
    have hfib : (fiberIdx ds x.shape i).map (x.map (fun v => |v|)).data =
        (fiberIdx ds x.shape i).map (fun j => |x.data j|) := rfl
    rw [hnorm_eq, amin_keep_data _ hds i, habs_shape, hfib]
    cases hl : (fiberIdx ds x.shape i).map (fun j => |x.data j|) with
    | nil => exact absurd (List.map_eq_nil_iff.mp hl) hne
    | cons v vs =>
      refine ⟨foldl_min_mem v vs, ?_⟩
      intro z hz
      obtain ⟨h1, h2⟩ := foldl_min_le v vs
      rcases List.mem_cons.mp hz with rfl | hz'
      · exact h1
      · exact h2 z hz'
  · -- p = 2: Euclidean length
    have h20 : ¬ ((2 : ℚ) = 0) := by norm_num
    have heven : isEvenOrd 2 = true := by decide
    simp only [norm]
    rw [if_neg h20]
    cases isF with
    | true =>
      rw [if_neg (show ¬ ¬ (isEvenOrd 2 = true ∧ true = true) by simp [heven])]
      rw [fast_pow_two, fast_pow_half, Tensor.map_data, sum_keep_data _ hds i]
      rw [show (Tensor.map (fun v => v * v) x).shape = x.shape from rfl]
      congr 1
      rw [show ((fiberIdx ds x.shape i).map (x.map (fun v => v * v)).data) =
        ((fiberIdx ds x.shape i).map (fun j => x.data j * x.data j)) from rfl]
      refine congrArg List.sum (list_map_congr fun j _ => ?_)
      rw [sq_abs]
      ring
    | false =>
      rw [if_pos (show ¬ (isEvenOrd 2 = true ∧ false = true) by simp)]
      rw [fast_pow_two, fast_pow_half, Tensor.map_data, sum_keep_data _ hds i]
      rw [show (Tensor.map (fun v => v * v) (Tensor.map (fun v => |v|) x)).shape
        = x.shape from rfl]
      congr 1
      rw [show ((fiberIdx ds x.shape i).map
          ((x.map (fun v => |v|)).map (fun v => v * v)).data) =
        ((fiberIdx ds x.shape i).map (fun j => |x.data j| * |x.data j|)) from rfl]
      refine congrArg List.sum (list_map_congr fun j _ => ?_)
      ring

/-- Witness for C8 at the spec's vector `x = [0,2,0,3]`, reducing dimension
list `[0]`, keepdim position `[0]`. -/
theorem norm_special_cases_witness :
    (norm (⟨[4], fun j => if j = [1] then 2 else if j = [3] then 3 else 0⟩ :
        Tensor ℝ) true (NormOrd.fin 0) [0] true).data [0] =
      ((((fiberIdx [0]
          (⟨[4], fun j => if j = [1] then 2 else if j = [3] then 3 else 0⟩ :
            Tensor ℝ).shape [0]).map
        (⟨[4], fun j => if j = [1] then 2 else if j = [3] then 3 else 0⟩ :
          Tensor ℝ).data).filter (fun v => decide (v ≠ 0))).length : ℝ) :=
  (norm_special_cases
    (⟨[4], fun j => if j = [1] then 2 else if j = [3] then 3 else 0⟩ : Tensor ℝ)
    true [0] (by decide) [0] (by decide)).1

/-! ## C4 — layer-norm backward with output mask `[True, False, False]` -/

theorem keepShape_degen (ds : List ℕ) :
    ∀ (p : ℕ) (s : List ℕ),
      List.Forall₂ (fun m n => m = n ∨ m = 1) (keepShape ds p s) s
  | _, [] => List.Forall₂.nil
  | p, x :: xs => by
    refine List.Forall₂.cons ?_ (keepShape_degen ds (p + 1) xs)
    by_cases hp : p ∈ ds <;> simp [keepShape, hp]

theorem take_replicate_degen (s : List ℕ) : ∀ axis : ℕ,
    List.Forall₂ (fun m n => m = n ∨ m = 1)
      (s.take axis ++ List.replicate (s.length - axis) 1) s := by
  induction s with
  | nil =>
    intro axis
    simp only [List.take_nil, List.length_nil, Nat.zero_sub, List.replicate_zero,
      List.nil_append]
    exact List.Forall₂.nil
  | cons x xs ih =>
    intro axis
    cases axis with
    | zero =>
      simp only [List.take_zero, List.nil_append, List.length_cons, Nat.sub_zero,
        List.replicate_succ]
      refine List.Forall₂.cons (Or.inr rfl) ?_
      have h := ih 0
      simpa using h
    | succ a =>
      simp only [List.take_succ_cons, List.length_cons, List.cons_append,
        Nat.succ_sub_succ]
      exact List.Forall₂.cons (Or.inl rfl) (ih a)

section LayerNorm

variable {α : Type} [LinearOrderedField α]

theorem sum_keep_shape_degen (t : Tensor α) (ds : List ℕ) :
    List.Forall₂ (fun m n => m = n ∨ m = 1) (t.sum ds true).shape t.shape := by
  by_cases hds : ds = []
  · subst hds
    have h : ((t.sum [] true).shape) = keepShape (List.range t.shape.length) 0 t.shape := rfl
    rw [h]
    exact keepShape_degen _ 0 t.shape
  · have h : ((t.sum ds true).shape) = keepShape ds 0 t.shape := by
      simp only [Tensor.sum, if_neg hds]
      simp
    rw [h]
    exact keepShape_degen ds 0 t.shape

theorem sum_keep_shape (t : Tensor α) {ds : List ℕ} (hds : ds ≠ []) :
    (t.sum ds true).shape = keepShape ds 0 t.shape := by
  simp only [Tensor.sum, if_neg hds]
  simp

end LayerNorm

/-- **C4** (amended): for an input with a positive number of elements in both
the outer and normalized subspaces (`M > 0` and `N > 0`), layer-norm backward
with `weight` and `bias` both absent and `output_mask = [True, False, False]`
returns `(some d_input, none, none)` with `d_input` of exactly the input's
shape.  (On empty inputs the early-return path yields three `some` tensors,
see the counterexample.) -/
theorem native_layer_norm_backward_mask100 {grad_out input mean rstd : Tensor ℚ}
    {normalized_shape : List ℕ}
    (hgo : grad_out.shape = input.shape)
    (hmean : mean.shape =
      input.shape.take (input.shape.length - normalized_shape.length) ++
        List.replicate (input.shape.length -
          (input.shape.length - normalized_shape.length)) 1)
    (hrstd : rstd.shape =
      input.shape.take (input.shape.length - normalized_shape.length) ++
        List.replicate (input.shape.length -
          (input.shape.length - normalized_shape.length)) 1)
    (hM : 0 < numel (input.shape.take
      (input.shape.length - normalized_shape.length)))
    (hN : 0 < numel (input.shape.drop
      (input.shape.length - normalized_shape.length))) :
    (native_layer_norm_backward grad_out input normalized_shape mean rstd
        none none [true, false, false]).2.1 = none ∧
    (native_layer_norm_backward grad_out input normalized_shape mean rstd
        none none [true, false, false]).2.2 = none ∧
    Option.map Tensor.shape
      (native_layer_norm_backward grad_out input normalized_shape mean rstd
        none none [true, false, false]).1 = some input.shape := by
  have hmean_deg : List.Forall₂ (fun m n => m = n ∨ m = 1) mean.shape input.shape := by
    rw [hmean]
    have h := take_replicate_degen input.shape
      (input.shape.length - normalized_shape.length)
    exact h
  have hrstd_deg : List.Forall₂ (fun m n => m = n ∨ m = 1) rstd.shape input.shape := by
    rw [hrstd]
    exact take_replicate_degen input.shape
      (input.shape.length - normalized_shape.length)
  have hguard : ¬ (numel (input.shape.take
        (input.shape.length - normalized_shape.length)) ≤ 0 ∨
      numel (input.shape.drop
        (input.shape.length - normalized_shape.length)) ≤ 0) := by
    push_neg
    exact ⟨hM, hN⟩
  -- name the intermediate tensors exactly as the source builds them
  have hxhat : (map2 (· * ·) (map2 (· - ·) input mean) rstd).shape = input.shape := by
    rw [map2_shape, map2_shape, broadcastShapes_degen_right hmean_deg,
      broadcastShapes_degen_right hrstd_deg]
  have hb_deg : List.Forall₂ (fun m n => m = n ∨ m = 1)
      ((grad_out.sum ((List.range input.shape.length).filter
        (fun i => decide (input.shape.length - normalized_shape.length ≤ i))) true).shape)
      input.shape := by
    have h := sum_keep_shape_degen grad_out
      ((List.range input.shape.length).filter
        (fun i => decide (input.shape.length - normalized_shape.length ≤ i)))
    rwa [hgo] at h
  have hc1 : (map2 (· * ·) grad_out
      (map2 (· * ·) (map2 (· - ·) input mean) rstd)).shape = input.shape := by
    rw [map2_shape, hgo, hxhat, broadcastShapes_self]
  have hc2_deg : List.Forall₂ (fun m n => m = n ∨ m = 1)
      (((map2 (· * ·) grad_out
        (map2 (· * ·) (map2 (· - ·) input mean) rstd)).sum
          ((List.range input.shape.length).filter
            (fun i => decide (input.shape.length - normalized_shape.length ≤ i)))
          true).shape)
      input.shape := by
    have h := sum_keep_shape_degen (map2 (· * ·) grad_out
      (map2 (· * ·) (map2 (· - ·) input mean) rstd))
      ((List.range input.shape.length).filter
        (fun i => decide (input.shape.length - normalized_shape.length ≤ i)))
    rwa [hc1] at h
  refine ⟨?_, ?_, ?_⟩
  · simp only [native_layer_norm_backward, if_neg hguard]
    simp [List.getD]
  · simp only [native_layer_norm_backward, if_neg hguard]
    simp [List.getD]
  · simp only [native_layer_norm_backward, if_neg hguard]
    simp only [List.getD_cons_zero, if_true, Option.map_some']
    congr 1
    rw [map2_shape, Tensor.map_shape]
    rw [map2_shape, map2_shape, Tensor.map_shape, hgo]
    rw [broadcastShapes_degen_right hb_deg]
    rw [map2_shape, hxhat, broadcastShapes_degen_right hc2_deg]
    rw [broadcastShapes_self, broadcastShapes_degen_left hrstd_deg]

/-- Witness for C4 at input shape `[2, 3]`, `normalized_shape = [3]`,
`mean`/`rstd` of shape `[2, 1]`. -/
theorem native_layer_norm_backward_mask100_witness :
    (native_layer_norm_backward (⟨[2, 3], fun _ => 1⟩ : Tensor ℚ)
        (⟨[2, 3], fun _ => 2⟩ : Tensor ℚ) [3] (⟨[2, 1], fun _ => 0⟩ : Tensor ℚ)
        (⟨[2, 1], fun _ => 1⟩ : Tensor ℚ) none none [true, false, false]).2.1
      = none ∧
    (native_layer_norm_backward (⟨[2, 3], fun _ => 1⟩ : Tensor ℚ)
        (⟨[2, 3], fun _ => 2⟩ : Tensor ℚ) [3] (⟨[2, 1], fun _ => 0⟩ : Tensor ℚ)
        (⟨[2, 1], fun _ => 1⟩ : Tensor ℚ) none none [true, false, false]).2.2
      = none ∧
    Option.map Tensor.shape
      (native_layer_norm_backward (⟨[2, 3], fun _ => 1⟩ : Tensor ℚ)
        (⟨[2, 3], fun _ => 2⟩ : Tensor ℚ) [3] (⟨[2, 1], fun _ => 0⟩ : Tensor ℚ)
        (⟨[2, 1], fun _ => 1⟩ : Tensor ℚ) none none [true, false, false]).1
      = some [2, 3] :=
  @native_layer_norm_backward_mask100 (⟨[2, 3], fun _ => 1⟩ : Tensor ℚ)
    (⟨[2, 3], fun _ => 2⟩ : Tensor ℚ) (⟨[2, 1], fun _ => 0⟩ : Tensor ℚ)
    (⟨[2, 1], fun _ => 1⟩ : Tensor ℚ) [3] rfl rfl rfl (by decide) (by decide)

/-- **C4** (counterexample to the claim as stated): on the empty input of
shape `[0]` with `normalized_shape = [0]`, weight and bias absent and
`output_mask = [True, False, False]`, the early-return path produces a
`some` tensor in the second component instead of `None`. -/
theorem native_layer_norm_backward_degenerate_not_none :
    ((native_layer_norm_backward (⟨[0], fun _ => 0⟩ : Tensor ℚ)
      (⟨[0], fun _ => 0⟩ : Tensor ℚ) [0] (⟨[1], fun _ => 0⟩ : Tensor ℚ)
      (⟨[1], fun _ => 0⟩ : Tensor ℚ) none none [true, false, false]).2.1).isSome
      = true := rfl

/-! ## C9 — advanced-indexing meta shapes -/

section MetaIndexLemmas

variable {γ δ : Type}

theorem foldlM_expandOne_long (ss : List ℕ) :
    ∀ (l : List (Option IxTensor)) (acc : List (Option (List ℕ))),
      (∀ ix ∈ l, ∀ t ∈ ix, t.dtype = IxDType.long) →
      List.foldlM (expandOne ss) acc l =
        some (acc ++ l.map (fun ix => ix.map IxTensor.shape)) := by
  intro l
  induction l with
  | nil => intro acc _; simp
  | cons ix rest ih =>
    intro acc h
    have hstep : expandOne ss acc ix = some (acc ++ [ix.map IxTensor.shape]) := by
      cases ix with
      | none => rfl
      | some t =>
        have ht : t.dtype = IxDType.long := h (some t) (by simp) t rfl
        simp [expandOne, ht]
    rw [List.foldlM_cons, hstep]
    have h' : ∀ ix' ∈ rest, ∀ t ∈ ix', t.dtype = IxDType.long :=
      fun ix' hix' => h ix' (by simp [hix'])
    simp only [Option.bind_eq_bind, Option.some_bind]
    rw [ih (acc ++ [ix.map IxTensor.shape]) h']
    simp

theorem contigAfterRun_map (f : γ → δ) :
    ∀ l : List (Option γ),
      contigAfterRun (l.map (Option.map f)) = contigAfterRun l
  | [] => rfl
  | some _ :: rest => rfl
  | none :: rest => by
    simp only [List.map_cons, Option.map_none', contigAfterRun]
    exact contigAfterRun_map f rest

theorem contigInRun_map (f : γ → δ) :
    ∀ l : List (Option γ), contigInRun (l.map (Option.map f)) = contigInRun l
  | [] => rfl
  | some _ :: rest => by
    simp only [List.map_cons, Option.map_some', contigInRun]
    exact contigInRun_map f rest
  | none :: rest => by
    simp only [List.map_cons, Option.map_none', contigInRun]
    exact contigAfterRun_map f rest

theorem hasContig_map (f : γ → δ) :
    ∀ l : List (Option γ),
      hasContigSubspace (l.map (Option.map f)) = hasContigSubspace l
  | [] => rfl
  | some _ :: rest => by
    simp only [List.map_cons, Option.map_some', hasContigSubspace]
    exact contigInRun_map f rest
  | none :: rest => by
    simp only [List.map_cons, Option.map_none', hasContigSubspace]
    exact hasContig_map f rest

theorem contigAfterRun_append_rep (k : ℕ) :
    ∀ l : List (Option γ),
      contigAfterRun (l ++ List.replicate k none) = contigAfterRun l := by
  intro l
  induction l with
  | nil =>
    simp only [List.nil_append]
    induction k with
    | zero => rfl
    | succ k ihk => simpa [List.replicate_succ, contigAfterRun] using ihk
  | cons x rest ih =>
    cases x with
    | some _ => rfl
    | none => simpa [contigAfterRun] using ih

theorem contigInRun_append_rep (k : ℕ) :
    ∀ l : List (Option γ),
      contigInRun (l ++ List.replicate k none) = contigInRun l := by
  intro l
  induction l with
  | nil =>
    simp only [List.nil_append]
    cases k with
    | zero => rfl
    | succ k =>
      simp only [List.replicate_succ, contigInRun]
      simpa using contigAfterRun_append_rep k ([] : List (Option γ))
  | cons x rest ih =>
    cases x with
    | some _ => simpa [contigInRun] using ih
    | none => simpa [contigInRun] using contigAfterRun_append_rep k rest

theorem hasContig_append_rep (k : ℕ) :
    ∀ l : List (Option γ),
      hasContigSubspace (l ++ List.replicate k none) = hasContigSubspace l := by
  intro l
  induction l with
  | nil =>
    simp only [List.nil_append]
    induction k with
    | zero => rfl
    | succ k ihk => simpa [List.replicate_succ, hasContigSubspace] using ihk
  | cons x rest ih =>
    cases x with
    | some _ => simpa [hasContigSubspace] using contigInRun_append_rep k rest
    | none => simpa [hasContigSubspace] using ih

theorem hasContig_false_filter_ne_nil :
    ∀ l : List (Option γ), hasContigSubspace l = false →
      l.filter (fun x => x.isSome) ≠ [] := by
  intro l
  induction l with
  | nil => intro h; simp [hasContigSubspace] at h
  | cons x rest ih =>
    intro h
    cases x with
    | some v => simp [List.filter_cons]
    | none =>
      simp only [hasContigSubspace] at h
      simpa [List.filter_cons] using ih h

theorem filter_isSome_uniform (c : γ) :
    ∀ l : List (Option γ), (∀ x ∈ l, x = none ∨ x = some c) →
      l.filter (fun x => x.isSome) =
        List.replicate (l.filter (fun x => x.isSome)).length (some c) := by
  intro l
  induction l with
  | nil => intro _; rfl
  | cons x rest ih =>
    intro h
    rcases h x (by simp) with rfl | rfl
    · simpa [List.filter_cons] using ih (fun y hy => h y (by simp [hy]))
    · simp only [List.filter_cons, Option.isSome_some, if_pos trivial,
        List.length_cons, List.replicate_succ]
      simpa using ih (fun y hy => h y (by simp [hy]))

theorem filter_isNone_rep :
    ∀ l : List (Option γ),
      l.filter (fun x => x.isNone) =
        List.replicate (l.filter (fun x => x.isNone)).length none := by
  intro l
  induction l with
  | nil => rfl
  | cons x rest ih =>
    cases x with
    | none =>
      simp only [List.filter_cons, Option.isNone_none, if_pos trivial,
        List.length_cons, List.replicate_succ]
      simpa using ih
    | some v => simpa [List.filter_cons] using ih

theorem composeGo_rep_some (c : List ℕ) :
    ∀ (a : ℕ) (zs : List ℕ) (irest : List (Option (List ℕ)))
      (before repl after : List ℕ), a ≤ zs.length → 1 ≤ a →
      composeGo zs (List.replicate a (some c) ++ irest) before repl after =
        composeGo (zs.drop a) irest before c after := by
  intro a
  induction a with
  | zero => intro _ _ _ _ _ _ h; omega
  | succ a ih =>
    intro zs irest before repl after hlen _
    cases zs with
    | nil => simp at hlen
    | cons z zrest =>
      simp only [List.replicate_succ, List.cons_append, List.append_eq, composeGo]
      cases a with
      | zero => simp [composeGo]
      | succ a' =>
        exact ih zrest irest before c after (by simpa using hlen) (by omega)

theorem composeGo_rep_none :
    ∀ (k : ℕ) (zs : List ℕ) (irest : List (Option (List ℕ)))
      (before repl after : List ℕ), k ≤ zs.length →
      composeGo zs (List.replicate k none ++ irest) before repl after =
        if repl = [] then
          composeGo (zs.drop k) irest (before ++ zs.take k) repl after
        else composeGo (zs.drop k) irest before repl (after ++ zs.take k) := by
  intro k
  induction k with
  | zero =>
    intro zs irest before repl after _
    simp
  | succ k ih =>
    intro zs irest before repl after hlen
    cases zs with
    | nil => simp at hlen
    | cons z zrest =>
      simp only [List.replicate_succ, List.cons_append, List.append_eq, composeGo]
      by_cases hr : repl = []
      · subst hr
        rw [if_neg (by simp)]
        rw [ih zrest irest (before ++ [z]) [] after (by simpa using hlen)]
        simp [List.take_cons, List.drop_succ_cons]
      · rw [if_pos hr, if_neg hr]
        rw [ih zrest irest before repl (after ++ [z]) (by simpa using hlen)]
        rw [if_neg hr]
        simp [List.take_cons, List.drop_succ_cons]

theorem optFold_filterMap :
    ∀ (l : List (Option (List ℕ))) (acc : List ℕ),
      l.foldl shapeFold acc = (l.filterMap id).foldl broadcastShapes acc := by
  intro l
  induction l with
  | nil => intro acc; rfl
  | cons x rest ih =>
    intro acc
    cases x with
    | none => simpa [List.filterMap_cons, shapeFold] using ih acc
    | some sh =>
      simpa [List.filterMap_cons, shapeFold] using ih (broadcastShapes acc sh)

end MetaIndexLemmas

/-- The dims of `s` at the non-null positions of the index list, in order. -/
def someDims {γ : Type} : List ℕ → List (Option γ) → List ℕ
  | _, [] => []
  | [], _ :: _ => []
  | n :: srest, ix :: irest =>
    if ix.isSome then n :: someDims srest irest else someDims srest irest

/-- The dims of `s` at the null positions of the index list, in order,
together with every dim of `s` beyond the index list (also untouched). -/
def noneDims {γ : Type} : List ℕ → List (Option γ) → List ℕ
  | s, [] => s
  | [], _ :: _ => []
  | n :: srest, ix :: irest =>
    if ix.isSome then noneDims srest irest else n :: noneDims srest irest

section MetaIndexLemmas2

variable {γ δ : Type}

theorem someDims_nil (s : List ℕ) : someDims s ([] : List (Option γ)) = [] := by
  cases s <;> rfl

theorem noneDims_nil (s : List ℕ) : noneDims s ([] : List (Option γ)) = s := by
  cases s <;> rfl

theorem drop_eq_getD_cons :
    ∀ (S : List ℕ) (k : ℕ), k < S.length → S.drop k = S.getD k 0 :: S.drop (k + 1)
  | [], k, h => by simp at h
  | x :: xs, 0, _ => rfl
  | x :: xs, k + 1, h => by
    simp only [List.drop_succ_cons, List.getD_cons_succ]
    exact drop_eq_getD_cons xs k (by simpa using h)

theorem bridge_someDims (S : List ℕ) :
    ∀ (l : List (Option γ)) (k : ℕ), k + l.length = S.length →
      ((List.enumFrom k l).filter (fun p => p.2.isSome)).map
          (fun p => S.getD p.1 0) =
        someDims (S.drop k) l := by
  intro l
  induction l with
  | nil =>
    intro k hk
    have hd : S.drop k = [] := by
      apply List.drop_eq_nil_of_le
      simp only [List.length_nil] at hk
      omega
    simp [hd, someDims_nil]
  | cons ix rest ih =>
    intro k hk
    simp only [List.length_cons] at hk
    have hklt : k < S.length := by omega
    have hrec := ih (k + 1) (by omega)
    rw [drop_eq_getD_cons S k hklt]
    cases ix with
    | none => simpa [List.enumFrom_cons, List.filter_cons, someDims] using hrec
    | some v => simpa [List.enumFrom_cons, List.filter_cons, someDims] using hrec

theorem bridge_noneDims (S : List ℕ) :
    ∀ (l : List (Option γ)) (k : ℕ), k + l.length = S.length →
      ((List.enumFrom k l).filter (fun p => p.2.isNone)).map
          (fun p => S.getD p.1 0) =
        noneDims (S.drop k) l := by
  intro l
  induction l with
  | nil =>
    intro k hk
    have hd : S.drop k = [] := by
      apply List.drop_eq_nil_of_le
      simp only [List.length_nil] at hk
      omega
    simp [hd, noneDims_nil]
  | cons ix rest ih =>
    intro k hk
    simp only [List.length_cons] at hk
    have hklt : k < S.length := by omega
    have hrec := ih (k + 1) (by omega)
    rw [drop_eq_getD_cons S k hklt]
    cases ix with
    | none => simpa [List.enumFrom_cons, List.filter_cons, noneDims] using hrec
    | some v => simpa [List.enumFrom_cons, List.filter_cons, noneDims] using hrec

theorem someDims_length :
    ∀ (s : List ℕ) (l : List (Option γ)), l.length = s.length →
      (someDims s l).length = (l.filter (fun x => x.isSome)).length
  | s, [], _ => by simp [someDims_nil]
  | [], _ :: _, h => by simp at h
  | n :: srest, ix :: irest, h => by
    have hrec := someDims_length srest irest
      (by simp only [List.length_cons] at h; omega)
    cases ix with
    | none => simpa [someDims, List.filter_cons] using hrec
    | some v => simpa [someDims, List.filter_cons] using hrec

theorem noneDims_length :
    ∀ (s : List ℕ) (l : List (Option γ)), l.length = s.length →
      (noneDims s l).length = (l.filter (fun x => x.isNone)).length
  | s, [], h => by
    simp only [noneDims_nil, List.filter_nil, List.length_nil]
    simp only [List.length_nil] at h
    omega
  | [], _ :: _, h => by simp at h
  | n :: srest, ix :: irest, h => by
    have hrec := noneDims_length srest irest
      (by simp only [List.length_cons] at h; omega)
    cases ix with
    | none => simpa [noneDims, List.filter_cons] using hrec
    | some v => simpa [noneDims, List.filter_cons] using hrec

theorem someDims_map (f : γ → δ) :
    ∀ (s : List ℕ) (l : List (Option γ)),
      someDims s (l.map (Option.map f)) = someDims s l
  | s, [] => by simp [someDims_nil]
  | [], _ :: _ => rfl
  | n :: srest, ix :: irest => by
    cases ix <;>
      simp [someDims, someDims_map f srest irest]

theorem noneDims_map (f : γ → δ) :
    ∀ (s : List ℕ) (l : List (Option γ)),
      noneDims s (l.map (Option.map f)) = noneDims s l
  | s, [] => by simp [noneDims_nil]
  | [], _ :: _ => rfl
  | n :: srest, ix :: irest => by
    cases ix <;>
      simp [noneDims, noneDims_map f srest irest]

theorem noneDims_all_none :
    ∀ s : List ℕ, noneDims s (List.replicate s.length (none : Option γ)) = s
  | [] => noneDims_nil []
  | n :: srest => by
    simp only [List.length_cons, List.replicate_succ, noneDims,
      Option.isSome_none, Bool.false_eq_true, if_neg (by simp : ¬ False)]
    rw [noneDims_all_none srest]

theorem someDims_all_none :
    ∀ s : List ℕ, someDims s (List.replicate s.length (none : Option γ)) = []
  | [] => someDims_nil []
  | n :: srest => by
    simp only [List.length_cons, List.replicate_succ, someDims,
      Option.isSome_none, Bool.false_eq_true, if_neg (by simp : ¬ False)]
    exact someDims_all_none srest

theorem noneDims_append_rep :
    ∀ (s : List ℕ) (l : List (Option γ)), l.length ≤ s.length →
      noneDims s (l ++ List.replicate (s.length - l.length) none) = noneDims s l
  | s, [], _ => by
    simp only [List.nil_append, List.length_nil, Nat.sub_zero]
    rw [noneDims_all_none s, noneDims_nil]
  | [], _ :: _, h => by simp at h
  | n :: srest, ix :: irest, h => by
    cases ix <;>
      simpa [noneDims] using
        noneDims_append_rep srest irest (by simpa using h)

theorem someDims_append_rep :
    ∀ (s : List ℕ) (l : List (Option γ)), l.length ≤ s.length →
      someDims s (l ++ List.replicate (s.length - l.length) none) = someDims s l
  | s, [], _ => by
    simp only [List.nil_append, List.length_nil, Nat.sub_zero]
    rw [someDims_all_none s, someDims_nil]
  | [], _ :: _, h => by simp at h
  | n :: srest, ix :: irest, h => by
    cases ix <;>
      simpa [someDims] using
        someDims_append_rep srest irest (by simpa using h)

theorem filterMap_id_all_none :
    ∀ l : List (Option γ), (∀ x ∈ l, x = none) → l.filterMap id = []
  | [], _ => rfl
  | x :: rest, h => by
    have hx := h x (by simp)
    subst hx
    simpa [List.filterMap_cons] using
      filterMap_id_all_none rest (fun y hy => h y (by simp [hy]))

end MetaIndexLemmas2

section MetaIndexLemmas3

variable {γ δ : Type}

theorem filterMap_id_map_opt (f : γ → δ) :
    ∀ l : List (Option γ),
      (l.map (Option.map f)).filterMap id = (l.filterMap id).map f
  | [] => rfl
  | x :: rest => by
    cases x <;> simp [List.filterMap_cons, filterMap_id_map_opt f rest]

theorem mem_opt_const (c : δ) (l : List (Option γ)) (m : ℕ) :
    ∀ x ∈ l.map (Option.map (fun _ => c)) ++ List.replicate m (none : Option δ),
      x = none ∨ x = some c := by
  intro x hx
  rcases List.mem_append.mp hx with h | h
  · rcases List.mem_map.mp h with ⟨y, _, rfl⟩
    cases y with
    | none => exact Or.inl rfl
    | some v => exact Or.inr rfl
  · exact Or.inl (List.eq_of_mem_replicate h)

theorem composeGo_nil (zs before repl after : List ℕ) :
    composeGo zs [] before repl after = (before, repl, after) := by
  cases zs <;> rfl

theorem new_empty_shape {α : Type} [Zero α] (s : List ℕ) :
    (new_empty s : Tensor α).shape = s := rfl

theorem permute_shape {α : Type} (t : Tensor α) (perm : List ℕ) :
    (t.permute perm).shape = perm.map (fun d => t.shape.getD d 0) := rfl

theorem bridge_someDims0 (S : List ℕ) (l : List (Option γ))
    (h : l.length = S.length) :
    (l.enum.filter (fun p => p.2.isSome)).map (fun p => S.getD p.1 0) =
      someDims S l :=
  bridge_someDims S l 0 (by omega)

theorem bridge_noneDims0 (S : List ℕ) (l : List (Option γ))
    (h : l.length = S.length) :
    (l.enum.filter (fun p => p.2.isNone)).map (fun p => S.getD p.1 0) =
      noneDims S l :=
  bridge_noneDims S l 0 (by omega)

theorem contigAfterRun_all_none :
    ∀ l : List (Option γ), contigAfterRun l = true → ∀ x ∈ l, x = none
  | [], _, x, hx => absurd hx (by simp)
  | some v :: rest, h, x, hx => by simp [contigAfterRun] at h
  | none :: rest, h, x, hx => by
    rcases List.mem_cons.mp hx with rfl | hx'
    · rfl
    · exact contigAfterRun_all_none rest (by simpa [contigAfterRun] using h) x hx'

theorem contigInRun_decomp :
    ∀ l : List (Option γ), contigInRun l = true →
      ∃ Y Z, l = Y ++ Z ∧ (∀ y ∈ Y, y.isSome = true) ∧ (∀ z ∈ Z, z = none)
  | [], _ => ⟨[], [], rfl, by simp, by simp⟩
  | some v :: rest, h => by
    obtain ⟨Y, Z, hYZ, hY, hZ⟩ :=
      contigInRun_decomp rest (by simpa [contigInRun] using h)
    refine ⟨some v :: Y, Z, by simp [hYZ], ?_, hZ⟩
    intro y hy
    rcases List.mem_cons.mp hy with rfl | hy'
    · rfl
    · exact hY y hy'
  | none :: rest, h => by
    refine ⟨[], none :: rest, rfl, by simp, ?_⟩
    intro z hz
    rcases List.mem_cons.mp hz with rfl | hz'
    · rfl
    · exact contigAfterRun_all_none rest (by simpa [contigInRun] using h) z hz'

theorem hasContig_decomp :
    ∀ l : List (Option γ), hasContigSubspace l = true →
      ∃ X Y Z, l = X ++ (Y ++ Z) ∧ (∀ x ∈ X, x = none) ∧
        (∀ y ∈ Y, y.isSome = true) ∧ (∀ z ∈ Z, z = none)
  | [], _ => ⟨[], [], [], rfl, by simp, by simp, by simp⟩
  | none :: rest, h => by
    obtain ⟨X, Y, Z, hXYZ, hX, hY, hZ⟩ :=
      hasContig_decomp rest (by simpa [hasContigSubspace] using h)
    refine ⟨none :: X, Y, Z, by simp [hXYZ], ?_, hY, hZ⟩
    intro x hx
    rcases List.mem_cons.mp hx with rfl | hx'
    · rfl
    · exact hX x hx'
  | some v :: rest, h => by
    obtain ⟨Y, Z, hYZ, hY, hZ⟩ :=
      contigInRun_decomp rest (by simpa [hasContigSubspace] using h)
    refine ⟨[], some v :: Y, Z, by simp [hYZ], by simp, ?_, hZ⟩
    intro y hy
    rcases List.mem_cons.mp hy with rfl | hy'
    · rfl
    · exact hY y hy'

theorem compose_central (S c : List ℕ) (a b z : ℕ) (hlen : a + b + z = S.length) :
    (composeLoop S (List.replicate a none ++
        (List.replicate b (some c) ++ List.replicate z none))).1 ++
      (composeLoop S (List.replicate a none ++
        (List.replicate b (some c) ++ List.replicate z none))).2.1 ++
      (composeLoop S (List.replicate a none ++
        (List.replicate b (some c) ++ List.replicate z none))).2.2 =
    if b = 0 then S else S.take a ++ c ++ S.drop (a + b) := by
  have h1 := composeGo_rep_none a S
    (List.replicate b (some c) ++ List.replicate z none) [] [] [] (by omega)
  rw [if_pos rfl] at h1
  simp only [List.nil_append] at h1
  simp only [composeLoop, h1]
  rcases Nat.eq_zero_or_pos b with hb | hb
  · subst hb
    simp only [List.replicate_zero, List.nil_append]
    have h2 := composeGo_rep_none z (S.drop a) [] (S.take a) [] []
      (by rw [List.length_drop]; omega)
    rw [if_pos rfl] at h2
    simp only [List.append_nil] at h2
    rw [h2, composeGo_nil]
    have hz : (S.drop a).take z = S.drop a := by
      rw [(by rw [List.length_drop]; omega : z = (S.drop a).length),
        List.take_length]
    rw [hz]
    simp [List.take_append_drop]
  · have hb' : b ≠ 0 := by omega
    rw [if_neg hb']
    rw [composeGo_rep_some c b (S.drop a) (List.replicate z none)
      (S.take a) [] [] (by rw [List.length_drop]; omega) hb]
    have hdd : (S.drop a).drop b = S.drop (a + b) := by
      rw [List.drop_drop, Nat.add_comm]
    rw [hdd]
    have h3 := composeGo_rep_none z (S.drop (a + b)) [] (S.take a) c []
      (by rw [List.length_drop]; omega)
    simp only [List.append_nil] at h3
    rw [h3]
    have hz : (S.drop (a + b)).take z = S.drop (a + b) := by
      rw [(by rw [List.length_drop]; omega : z = (S.drop (a + b)).length),
        List.take_length]
    by_cases hc : c = []
    · rw [if_pos hc, composeGo_nil]
      subst hc
      simp [hz]
    · rw [if_neg hc, composeGo_nil]
      simp [hz]

theorem compose_transposed (A B c : List ℕ) (I3 : List (Option (List ℕ)))
    (hmem : ∀ x ∈ I3, x = none ∨ x = some c)
    (hA : A.length = (I3.filter (fun x => x.isSome)).length)
    (hB : B.length = (I3.filter (fun x => x.isNone)).length)
    (hne : I3.filter (fun x => x.isSome) ≠ []) :
    (composeLoop (A ++ B)
        (I3.filter (fun x => x.isSome) ++ I3.filter (fun x => x.isNone))).1 ++
      (composeLoop (A ++ B)
        (I3.filter (fun x => x.isSome) ++ I3.filter (fun x => x.isNone))).2.1 ++
      (composeLoop (A ++ B)
        (I3.filter (fun x => x.isSome) ++ I3.filter (fun x => x.isNone))).2.2 =
    c ++ B := by
  have hsf := filter_isSome_uniform c I3 hmem
  have hnf := filter_isNone_rep I3
  have ha1 : 1 ≤ (I3.filter (fun x => x.isSome)).length := by
    rcases Nat.eq_zero_or_pos (I3.filter (fun x => x.isSome)).length with h0 | h
    · exact absurd (List.length_eq_zero.mp h0) hne
    · exact h
  simp only [composeLoop]
  rw [hsf, hnf]
  rw [composeGo_rep_some c ((I3.filter (fun x => x.isSome)).length) (A ++ B)
    (List.replicate ((I3.filter (fun x => x.isNone)).length) none) [] [] []
    (by rw [List.length_append]; omega) ha1]
  have hdl : (A ++ B).drop ((I3.filter (fun x => x.isSome)).length) = B := by
    rw [← hA, List.drop_left]
  rw [hdl]
  have h2 := composeGo_rep_none ((I3.filter (fun x => x.isNone)).length) B []
    [] c [] (le_of_eq hB.symm)
  simp only [List.append_nil, List.nil_append] at h2
  rw [h2]
  have hbt : B.take ((I3.filter (fun x => x.isNone)).length) = B := by
    rw [← hB, List.take_length]
  by_cases hc : c = []
  · rw [if_pos hc, composeGo_nil]
    subst hc
    simp [hbt]
  · rw [if_neg hc, composeGo_nil]
    simp [hbt]

end MetaIndexLemmas3

/-- **C9** (advanced-indexing meta rule, `meta_index_Tensor`): (a) indexing a
tensor of shape `(4,5,6)` with a single 1-D integer index tensor of length 3 at
position 0 yields output shape `(3,5,6)`; and, for every successful call on
integer (`long`) indices: (b) if the non-null index positions are NOT
contiguous, the indexed dimensions are moved to the front — the output shape is
the broadcast index shape followed by the untouched dimensions; (c) if the
non-null positions are contiguous (a run of `b` non-null positions starting at
`a`, padded to the tensor rank with nulls), the output shape is
[leading untouched dims][broadcast index shape][trailing untouched dims]. -/
theorem meta_index_Tensor_shapes (self : Tensor ℚ)
    (indices : List (Option IxTensor)) (t : Tensor ℚ)
    (hlong : ∀ ix ∈ indices, ∀ ixt ∈ ix, ixt.dtype = IxDType.long)
    (hsucc : meta_index_Tensor self indices = some t) :
    ((meta_index_Tensor (⟨[4, 5, 6], fun _ => 0⟩ : Tensor ℚ)
        [some ⟨IxDType.long, [3], fun _ => false⟩]).map Tensor.shape
      = some [3, 5, 6]) ∧
    (hasContigSubspace indices = false →
      t.shape =
        ((indices.filterMap id).map IxTensor.shape).foldl broadcastShapes [] ++
          noneDims self.shape indices) ∧
    (hasContigSubspace indices = true →
      ∃ a b z, a + b + z = self.shape.length ∧
        indices.map Option.isSome ++
            List.replicate (self.shape.length - indices.length) false =
          List.replicate a false ++
            (List.replicate b true ++ List.replicate z false) ∧
        t.shape = self.shape.take a ++
          ((indices.filterMap id).map IxTensor.shape).foldl broadcastShapes []
            ++ self.shape.drop (a + b)) := by
  by_cases hemp : indices = []
  · subst hemp
    simp [meta_index_Tensor] at hsucc
  have hie : indices.isEmpty = false := by
    cases indices with
    | nil => exact absurd rfl hemp
    | cons x l => rfl
  simp only [meta_index_Tensor, hie, Bool.false_eq_true, if_false,
    foldlM_expandOne_long self.shape indices [] hlong, List.nil_append] at hsucc
  by_cases hkk :
      (indices.map (fun ix => ix.map IxTensor.shape)).length ≤ self.shape.length
  case neg =>
    rw [if_pos hkk] at hsucc
    exact absurd hsucc (by simp)
  rw [if_neg (not_not_intro hkk)] at hsucc
  have hkn : indices.length ≤ self.shape.length := by simpa using hkk
  refine ⟨by decide, ?_, ?_⟩
  all_goals
    rw [hasContig_append_rep, hasContig_map, hasContig_map] at hsucc
  · -- non-contiguous positions: indexed dims to the front
    intro hnc
    rw [hnc, if_neg (by simp)] at hsucc
    have ht := Option.some_inj.mp hsucc
    rw [← ht, new_empty_shape]
    set pr := indices.map (fun ix => ix.map IxTensor.shape) with hpr
    set cfold := pr.foldl shapeFold ([] : List ℕ) with hcf
    set I2 := pr.map (fun s => s.map (fun _ => cfold)) with hI2
    set I3 := I2 ++ List.replicate (self.shape.length - I2.length) none with hI3
    have hprlen : pr.length = indices.length := by rw [hpr]; simp
    have hI2len : I2.length = indices.length := by rw [hI2]; simp [hprlen]
    have hI3len : I3.length = self.shape.length := by
      rw [hI3]
      simp only [List.length_append, List.length_replicate, hI2len]
      omega
    have hmem3 : ∀ x ∈ I3, x = none ∨ x = some cfold := by
      rw [hI3, hI2]
      exact mem_opt_const cfold pr _
    have hsd : someDims self.shape I3 = someDims self.shape indices := by
      rw [hI3, someDims_append_rep _ _ (by rw [hI2len]; exact hkn),
        hI2, someDims_map, hpr, someDims_map]
    have hnd : noneDims self.shape I3 = noneDims self.shape indices := by
      rw [hI3, noneDims_append_rep _ _ (by rw [hI2len]; exact hkn),
        hI2, noneDims_map, hpr, noneDims_map]
    have hAlen : (someDims self.shape indices).length =
        (I3.filter (fun x => x.isSome)).length := by
      rw [← hsd]
      exact someDims_length self.shape I3 hI3len
    have hBlen : (noneDims self.shape indices).length =
        (I3.filter (fun x => x.isNone)).length := by
      rw [← hnd]
      exact noneDims_length self.shape I3 hI3len
    have hI3nc : hasContigSubspace I3 = false := by
      rw [hI3, hasContig_append_rep, hI2, hasContig_map, hpr, hasContig_map]
      exact hnc
    have hne3 : I3.filter (fun x => x.isSome) ≠ [] :=
      hasContig_false_filter_ne_nil I3 hI3nc
    rw [permute_shape, List.map_append, List.map_map, List.map_map]
    simp only [Function.comp_def]
    rw [bridge_someDims0 self.shape I3 hI3len,
      bridge_noneDims0 self.shape I3 hI3len, hsd, hnd,
      compose_transposed (someDims self.shape indices)
        (noneDims self.shape indices) cfold I3 hmem3 hAlen hBlen hne3]
    congr 1
    rw [hcf, optFold_filterMap, hpr, filterMap_id_map_opt]
  · intro hc
    rw [hc, if_pos rfl] at hsucc
    have ht := Option.some_inj.mp hsucc
    rw [← ht, new_empty_shape]
    set pr := indices.map (fun ix => ix.map IxTensor.shape) with hpr
    set cfold := pr.foldl shapeFold ([] : List ℕ) with hcf
    set I2 := pr.map (fun s => s.map (fun _ => cfold)) with hI2
    set I3 := I2 ++ List.replicate (self.shape.length - I2.length) none with hI3
    have hprlen : pr.length = indices.length := by rw [hpr]; simp
    have hI2len : I2.length = indices.length := by rw [hI2]; simp [hprlen]
    have hI3len : I3.length = self.shape.length := by
      rw [hI3]
      simp only [List.length_append, List.length_replicate, hI2len]
      omega
    have hmem3 : ∀ x ∈ I3, x = none ∨ x = some cfold := by
      rw [hI3, hI2]
      exact mem_opt_const cfold pr _
    have hI3c : hasContigSubspace I3 = true := by
      rw [hI3, hasContig_append_rep, hI2, hasContig_map, hpr, hasContig_map]
      exact hc
    obtain ⟨X, Y, Z, hXYZ, hXn, hYs, hZn⟩ := hasContig_decomp I3 hI3c
    have hXrep : X = List.replicate X.length none :=
      List.eq_replicate_of_mem hXn
    have hYc : ∀ y ∈ Y, y = some cfold := by
      intro y hy
      rcases hmem3 y (by rw [hXYZ]; simp [hy]) with rfl | rfl
      · exact absurd (hYs _ hy) (by simp)
      · rfl
    have hYrep : Y = List.replicate Y.length (some cfold) :=
      List.eq_replicate_of_mem hYc
    have hZrep : Z = List.replicate Z.length none :=
      List.eq_replicate_of_mem hZn
    have hsum : X.length + Y.length + Z.length = self.shape.length := by
      have h := congrArg List.length hXYZ
      simp only [List.length_append] at h
      omega
    refine ⟨X.length, Y.length, Z.length, hsum, ?_, ?_⟩
    · have hpat : I3.map Option.isSome =
          indices.map Option.isSome ++
            List.replicate (self.shape.length - indices.length) false := by
        rw [hI3, List.map_append, List.map_replicate, hI2, List.map_map,
          hpr, List.map_map, hI2len]
        congr 1
        exact list_map_congr (fun ix _ => by cases ix <;> rfl)
      rw [← hpat, hXYZ, List.map_append, List.map_append,
        hXrep, hYrep, hZrep]
      simp [List.map_replicate]
    · have hI3rep : I3 = List.replicate X.length none ++
          (List.replicate Y.length (some cfold) ++
            List.replicate Z.length none) := by
        rw [hXYZ, ← hXrep, ← hYrep, ← hZrep]
      rw [hI3rep, compose_central self.shape cfold X.length Y.length Z.length
        hsum]
      by_cases hb0 : Y.length = 0
      · rw [if_pos hb0]
        have hYnil : Y = [] := List.length_eq_zero.mp hb0
        have hI3none : ∀ x ∈ I3, x = none := by
          intro x hx
          rw [hXYZ, hYnil] at hx
          rcases List.mem_append.mp hx with h | h
          · exact hXn x h
          · exact hZn x (by simpa using h)
        have hallnone : ∀ ix ∈ indices, ix = none := by
          intro ix hix
          have hx3 : Option.map (fun _ => cfold) (Option.map IxTensor.shape ix) ∈ I3 := by
            rw [hI3, hI2, hpr]
            exact List.mem_append_left _
              (List.mem_map_of_mem _ (List.mem_map_of_mem _ hix))
          have hno := hI3none _ hx3
          cases ix with
          | none => rfl
          | some v => simp at hno
        have hfm : indices.filterMap id = [] :=
          filterMap_id_all_none indices hallnone
        rw [hfm]
        simp [hb0, List.take_append_drop]
      · rw [if_neg hb0]
        have hcc : cfold =
            ((indices.filterMap id).map IxTensor.shape).foldl
              broadcastShapes [] := by
          rw [hcf, optFold_filterMap, hpr, filterMap_id_map_opt]
        rw [hcc]

/-- Witness for **C9**: a concrete successful call (`self : (4,5,6)`, a null
index followed by a 1-D long index of length 7) discharging the hypotheses. -/
theorem meta_index_Tensor_shapes_witness :
    (meta_index_Tensor (⟨[4, 5, 6], fun _ => 0⟩ : Tensor ℚ)
        [some ⟨IxDType.long, [3], fun _ => false⟩]).map Tensor.shape
      = some [3, 5, 6] :=
  (meta_index_Tensor_shapes (⟨[4, 5, 6], fun _ => 0⟩ : Tensor ℚ)
      [none, some ⟨IxDType.long, [7], fun _ => false⟩]
      (new_empty [4, 7, 6])
      (by simp)
      (by rfl)).1

/-! ## C3: `nll_loss_backward` -/

section NllLemmas

variable {α : Type} [LinearOrderedField α]

@[simp] theorem scatterVal_shape {β : Type} (t : Tensor β) (dim : ℕ)
    (index : Tensor ℤ) (v : β) : (t.scatterVal dim index v).shape = t.shape :=
  rfl

theorem scatterVal_data {β : Type} (t : Tensor β) (dim : ℕ) (index : Tensor ℤ)
    (v : β) (i : List ℕ) :
    (t.scatterVal dim index v).data i =
      if (allIdx index.shape).any (fun j =>
          j.eraseIdx dim == i.eraseIdx dim && index.data j == (i.getD dim 0 : ℤ))
      then v else t.data i := rfl

@[simp] theorem zeros_like_shape {β : Type} [Zero β] (t : Tensor β) :
    (zeros_like t : Tensor β).shape = t.shape := rfl

@[simp] theorem zeros_like_data {β : Type} [Zero β] (t : Tensor β)
    (i : List ℕ) : (zeros_like t : Tensor β).data i = 0 := rfl

@[simp] theorem unsqueeze_shape {β : Type} (t : Tensor β) (p : ℕ) :
    (t.unsqueeze p).shape = t.shape.insertIdx p 1 := rfl

@[simp] theorem unsqueeze_data {β : Type} (t : Tensor β) (p : ℕ) (i : List ℕ) :
    (t.unsqueeze p).data i = t.data (i.eraseIdx p) := rfl

@[simp] theorem maskToNum_shape {β : Type} [Zero β] [One β] (m : Tensor Bool) :
    (maskToNum m : Tensor β).shape = m.shape := rfl

@[simp] theorem maskToNum_data {β : Type} [Zero β] [One β] (m : Tensor Bool)
    (i : List ℕ) : (maskToNum m : Tensor β).data i = if m.data i then 1 else 0 :=
  rfl

@[simp] theorem reshape_shape {β : Type} (t : Tensor β) (s : List ℕ) :
    (t.reshape s).shape = s := rfl

theorem stretch_coord {n N : ℕ} (h : n < N) : (if N = 1 then 0 else n) = n := by
  split <;> omega

theorem bIdx_pair (a b n c : ℕ) :
    bIdx [a, b] [n, c] = [if a = 1 then 0 else n, if b = 1 then 0 else c] := rfl

theorem bIdx_one (x : List ℕ) : bIdx [1] x = [] ∨ bIdx [1] x = [0] := by
  unfold bIdx
  rcases hd : List.drop (x.length - [1].length) x with _ | ⟨a, l⟩
  · exact Or.inl rfl
  · right
    simp

theorem insertIdx_length_le :
    ∀ (l : List ℕ) (n x : ℕ), (l.insertIdx n x).length ≤ l.length + 1
  | l, 0, x => by simp
  | [], n + 1, x => by simp [List.insertIdx]
  | y :: l, n + 1, x => by
    simpa [List.insertIdx_succ_cons] using insertIdx_length_le l n x

theorem broadcastShapes_length (s t : List ℕ) :
    (broadcastShapes s t).length = max s.length t.length := by
  unfold broadcastShapes
  split <;>
    simp [List.length_take, List.length_zipWith, List.length_drop] <;> omega

theorem broadcast_pair (t : List ℕ) (N : ℕ) (h : t.length ≤ 2) :
    ∃ d0 d1, broadcastShapes t [N, 1] = [d0, d1] ∧ (N ≠ 1 → d0 ≠ 1) := by
  match t, h with
  | [], _ =>
    refine ⟨N, 1, by simp [broadcastShapes], fun h1 => h1⟩
  | [x], _ =>
    refine ⟨N, bDim x 1, ?_, fun h1 => h1⟩
    simp [broadcastShapes]
  | [x, y], _ =>
    refine ⟨bDim x N, bDim y 1, ?_, ?_⟩
    · simp [broadcastShapes]
    · intro h1
      unfold bDim
      split
      · exact h1
      · omega

theorem unsq_if_len_le {β : Type} (t : Tensor β) (L p : ℕ)
    (h : t.shape.length ≤ 1) :
    (if L > t.shape.length ∧ t.shape.length > 0 then t.unsqueeze p
      else t).shape.length ≤ 2 := by
  split
  · rw [unsqueeze_shape]
    exact le_trans (insertIdx_length_le _ _ _) (by omega)
  · omega

/-- The grad-side factor of the NLL backward product vanishes at an
ignored position: unbatched (0-D target) case. -/
theorem mask_chain_A (g3 : Tensor α) (targ : Tensor ℤ) (ig : ℤ) (x : List ℕ)
    (hT : targ.shape = []) (htg : targ.data [] = ig) :
    (map2 (· * ·) g3
      (maskToNum ((targ.unsqueeze 0).map (fun v => decide (v ≠ ig))))).data x
      = 0 := by
  have hms : (maskToNum ((targ.unsqueeze 0).map (fun v => decide (v ≠ ig)))
      : Tensor α).shape = [1] := by
    simp only [maskToNum_shape, Tensor.map_shape, unsqueeze_shape, hT]
    rfl
  simp only [map2_data, hms]
  apply mul_eq_zero_of_right
  rcases bIdx_one x with he | he <;> rw [he] <;>
    simp [Tensor.map_data, List.eraseIdx, htg]

/-- The grad-side factor of the NLL backward product vanishes at an
ignored position: batched (1-D target) case. -/
theorem mask_chain_C (g3 : Tensor α) (targ : Tensor ℤ) (ig : ℤ) (M n c : ℕ)
    (hT : targ.shape = [M]) (hg3 : g3.shape.length ≤ 2)
    (hn : n < M) (htg : targ.data [n] = ig) :
    (map2 (· * ·) g3
      (maskToNum ((targ.unsqueeze 1).map (fun v => decide (v ≠ ig))))).data
        (bIdx (map2 (· * ·) g3
          (maskToNum ((targ.unsqueeze 1).map (fun v => decide (v ≠ ig))))).shape
          [n, c]) = 0 := by
  have hms : (maskToNum ((targ.unsqueeze 1).map (fun v => decide (v ≠ ig)))
      : Tensor α).shape = [M, 1] := by
    simp only [maskToNum_shape, Tensor.map_shape, unsqueeze_shape, hT]
    rfl
  simp only [map2_data, map2_shape, hms]
  apply mul_eq_zero_of_right
  obtain ⟨d0, d1, hbs, hd0⟩ := broadcast_pair g3.shape M hg3
  rw [hbs, bIdx_pair, bIdx_pair, if_pos rfl]
  have hAn : (if M = 1 then 0 else if d0 = 1 then 0 else n) = n := by
    by_cases hM : M = 1
    · rw [if_pos hM]; omega
    · rw [if_neg hM, if_neg (hd0 hM)]
  rw [hAn]
  simp [Tensor.map_data, List.eraseIdx, htg]

/-- `_nll_loss_backward` vanishes at ignored positions: unbatched case
(`self : [C]`, 0-D target). -/
theorem nll_core_A (go self_ : Tensor α) (targ : Tensor ℤ)
    (weight : Option (Tensor α)) (reduction : ℕ) (ig : ℤ) (tw : Tensor α)
    (Cn c : ℕ) (hS : self_.shape = [Cn]) (hT : targ.shape = []) (hc : c < Cn)
    (htg : targ.data [] = ig) :
    (_nll_loss_backward go self_ targ weight reduction ig tw).data [c] = 0 := by
  have hcd : (if self_.shape.length < 2 then 0 else 1) = 0 := by simp [hS]
  simp only [_nll_loss_backward, hcd]
  simp only [map2_data, scatterVal_shape, zeros_like_shape, hS]
  rw [bIdx_self (List.Forall₂.cons hc List.Forall₂.nil)]
  rw [scatterVal_data]
  split
  · next hhit =>
    apply mul_eq_zero_of_right
    have hig : ig ≥ 0 := by
      obtain ⟨j, hjm, hj⟩ := List.any_eq_true.mp hhit
      rw [unsqueeze_shape, hT,
        (rfl : (([] : List ℕ).insertIdx 0 1) = [1])] at hjm
      have hjv := mem_allIdx.mp hjm
      cases hjv with
      | cons hz htl =>
        cases htl
        rw [Bool.and_eq_true] at hj
        have h2 := beq_iff_eq.mp hj.2
        rw [unsqueeze_data] at h2
        simp only [List.eraseIdx_cons_zero, List.getD_cons_zero] at h2
        have hic : ig = (c : ℤ) := htg.symm.trans h2
        omega
    rw [if_pos hig]
    exact mask_chain_A _ targ ig _ hT htg
  · next hmiss =>
    apply mul_eq_zero_of_left
    rfl

/-- `_nll_loss_backward` on the degenerate 1-D-input/1-D-target mode: the
scatter index (rank 2) never matches a rank-1 position, so the whole gradient
is zero. -/
theorem nll_core_B (go self_ : Tensor α) (targ : Tensor ℤ)
    (weight : Option (Tensor α)) (reduction : ℕ) (ig : ℤ) (tw : Tensor α)
    (N M c : ℕ) (hS : self_.shape = [N]) (hT : targ.shape = [M]) (hc : c < N) :
    (_nll_loss_backward go self_ targ weight reduction ig tw).data [c] = 0 := by
  have hcd : (if self_.shape.length < 2 then 0 else 1) = 0 := by simp [hS]
  simp only [_nll_loss_backward, hcd]
  simp only [map2_data, scatterVal_shape, zeros_like_shape, hS]
  rw [bIdx_self (List.Forall₂.cons hc List.Forall₂.nil)]
  rw [scatterVal_data]
  apply mul_eq_zero_of_left
  split
  · next hhit =>
    exfalso
    obtain ⟨j, hjm, hj⟩ := List.any_eq_true.mp hhit
    rw [unsqueeze_shape, hT,
      (rfl : (([M] : List ℕ).insertIdx 0 1) = [1, M])] at hjm
    have hjv := mem_allIdx.mp hjm
    cases hjv with
    | cons ha htl =>
      cases htl with
      | cons hb htl2 =>
        cases htl2
        rw [Bool.and_eq_true] at hj
        have h1 := beq_iff_eq.mp hj.1
        simp only [List.eraseIdx_cons_zero] at h1
        exact absurd h1 (by simp)
  · next => rfl

/-- `_nll_loss_backward` vanishes at ignored positions: batched case
(`self : [N, C]`, 1-D target). -/
theorem nll_core_C (go self_ : Tensor α) (targ : Tensor ℤ)
    (weight : Option (Tensor α)) (reduction : ℕ) (ig : ℤ) (tw : Tensor α)
    (N Cn n c : ℕ) (hS : self_.shape = [N, Cn]) (hT : targ.shape = [N])
    (htw : tw.shape = []) (hgo : go.shape.length ≤ 1)
    (hn : n < N) (hc : c < Cn) (htg : targ.data [n] = ig) :
    (_nll_loss_backward go self_ targ weight reduction ig tw).data [n, c]
      = 0 := by
  have hcd : (if self_.shape.length < 2 then 0 else 1) = 1 := by simp [hS]
  have hg1 : (if reduction = Reduction.MEAN
      then map2 (· / ·) go tw else go).shape.length ≤ 1 := by
    split
    · rw [map2_shape, htw, broadcastShapes_nil_right]
      exact hgo
    · exact hgo
  simp only [_nll_loss_backward, hcd]
  simp only [map2_data, scatterVal_shape, zeros_like_shape, hS]
  rw [bIdx_self (List.Forall₂.cons hn (List.Forall₂.cons hc List.Forall₂.nil))]
  rw [scatterVal_data]
  split
  · next hhit =>
    apply mul_eq_zero_of_right
    have hig : ig ≥ 0 := by
      obtain ⟨j, hjm, hj⟩ := List.any_eq_true.mp hhit
      rw [unsqueeze_shape, hT,
        (rfl : (([N] : List ℕ).insertIdx 1 1) = [N, 1])] at hjm
      have hjv := mem_allIdx.mp hjm
      cases hjv with
      | cons hm htl =>
        cases htl with
        | cons hz htl2 =>
          cases htl2
          rw [Bool.and_eq_true] at hj
          have h1 := beq_iff_eq.mp hj.1
          have h2 := beq_iff_eq.mp hj.2
          simp only [List.eraseIdx] at h1
          rw [List.cons.injEq] at h1
          rw [unsqueeze_data] at h2
          simp only [List.eraseIdx, List.getD_cons_succ, List.getD_cons_zero]
            at h2
          rw [h1.1, htg] at h2
          omega
    rw [if_pos hig]
    refine mask_chain_C _ targ ig N n c hT ?_ hn htg
    rcases weight with _ | w
    · exact unsq_if_len_le _ _ _ hg1
    · rw [map2_shape, broadcastShapes_length, reshape_shape]
      simp only [List.length_set, List.length_replicate, List.length_cons,
        List.length_nil]
      rw [max_le_iff]
      exact ⟨unsq_if_len_le _ _ _ hg1, by omega⟩
  · next hmiss =>
    apply mul_eq_zero_of_left
    rfl

end NllLemmas

/-- **C3** (`nll_loss_backward`): for every call accepted by the assertion
preamble (with the canonical 0-D single-element `total_weight`), (1) the
returned gradient is exactly 0 at every position whose target entry (at the
position's non-channel coordinates) equals `ignore_index`, for both signs of
`ignore_index`; and (2) under MEAN reduction the result is exactly the SUM
reduction result with the incoming `grad_output` pre-divided by the
caller-supplied `total_weight` scalar — for an arbitrary `total_weight`, so
no element count is recomputed. -/
theorem nll_loss_backward_ignore_and_mean
    (grad_output self : Tensor ℚ) (target : Tensor ℤ)
    (weight : Option (Tensor ℚ)) (reduction : ℕ) (ignore_index : ℤ)
    (total_weight : Tensor ℚ) (gi : Tensor ℚ)
    (htw : total_weight.shape = [])
    (hsucc : nll_loss_backward grad_output self target weight reduction
      ignore_index total_weight = some gi) :
    (∀ i, ValidIdx i self.shape →
      target.data (i.eraseIdx (if self.shape.length < 2 then 0 else 1)) =
        ignore_index →
      gi.data i = 0) ∧
    nll_loss_backward grad_output self target weight Reduction.MEAN
        ignore_index total_weight =
      nll_loss_backward (map2 (· / ·) grad_output total_weight) self target
        weight Reduction.SUM ignore_index total_weight := by
  constructor
  · intro i hvi htg
    simp only [nll_loss_backward] at hsucc
    rcases hS : self.shape with _ | ⟨N, _ | ⟨Cn, _ | ⟨x, S2⟩⟩⟩
    · rw [hS] at hsucc
      simp at hsucc
    rotate_right
    · rw [hS] at hsucc
      simp at hsucc
    -- self rank 1
    · rcases hT : target.shape with _ | ⟨M, _ | ⟨y, T2⟩⟩
      · -- 0-D target: unbatched mode
        rw [hS, hT] at hsucc
        simp only [List.length_cons, List.length_nil] at hsucc
        split_ifs at hsucc <;> try exact Option.noConfusion hsucc
        all_goals
          rw [← Option.some_inj.mp hsucc]
          rw [hS] at hvi
          cases hvi with
          | cons hc htl =>
            cases htl
            rw [hS] at htg
            simp only [List.length_cons, List.length_nil] at htg
            rw [if_pos (by omega)] at htg
            simp only [List.eraseIdx_cons_zero] at htg
            exact nll_core_A grad_output self target weight reduction
              ignore_index total_weight N _ hS hT hc htg
      · -- 1-D target with 1-D input: scatter can never match
        rw [hS, hT] at hsucc
        simp only [List.length_cons, List.length_nil] at hsucc
        split_ifs at hsucc <;> try exact Option.noConfusion hsucc
        all_goals
          rw [← Option.some_inj.mp hsucc]
          rw [hS] at hvi
          cases hvi with
          | cons hc htl =>
            cases htl
            exact nll_core_B grad_output self target weight reduction
              ignore_index total_weight N M _ hS hT hc
      · rw [hT] at hsucc
        rw [if_pos (by simp only [List.length_cons]; omega :
          ¬ (M :: y :: T2).length ≤ 1), ite_self] at hsucc
        exact Option.noConfusion hsucc
    -- self rank 2
    · rcases hT : target.shape with _ | ⟨M, _ | ⟨y, T2⟩⟩
      · rw [hS, hT] at hsucc
        simp at hsucc
      · rw [hS, hT] at hsucc
        simp only [List.length_cons, List.length_nil] at hsucc
        split_ifs at hsucc with hc1 hc2 hc3 hc4 hc5 hc6 hc7 hc8 <;>
          try exact Option.noConfusion hsucc
        all_goals
          rw [← Option.some_inj.mp hsucc]
          rw [hS] at hvi
          cases hvi with
          | cons hn htl =>
            cases htl with
            | cons hc htl2 =>
              cases htl2
              rw [hS] at htg
              simp only [List.length_cons, List.length_nil] at htg
              rw [if_neg (by omega)] at htg
              simp only [List.eraseIdx, List.eraseIdx_cons_zero] at htg
              have hNM : M = N := by
                rcases hc3 with h | h
                · simp at h
                · exact (beq_iff_eq.mp h).symm
              refine nll_core_C grad_output self target weight reduction
                ignore_index total_weight N Cn _ _ hS (hNM ▸ hT) htw ?_
                hn hc htg
              first
                | exact le_of_eq hc7.1
                | exact hc7.1
                | exact le_of_eq hc8.1
                | exact hc8.1
      · rw [hT] at hsucc
        rw [if_pos (by simp only [List.length_cons]; omega :
          ¬ (M :: y :: T2).length ≤ 1), ite_self] at hsucc
        exact Option.noConfusion hsucc
  · have hsh : (map2 (· / ·) grad_output total_weight).shape =
        grad_output.shape := by
      rw [map2_shape, htw, broadcastShapes_nil_right]
    have hcore : _nll_loss_backward grad_output self target weight
        Reduction.MEAN ignore_index total_weight =
      _nll_loss_backward (map2 (· / ·) grad_output total_weight) self target
        weight Reduction.SUM ignore_index total_weight := by
      have h21 : ((2 : ℕ) = 1) = False := by simp
      simp only [_nll_loss_backward, Reduction.SUM, Reduction.MEAN, h21,
        if_true, if_false]
    have hM : (Reduction.MEAN = Reduction.NONE ∧ self.shape.length = 2)
        = False := by
      simp [Reduction.MEAN, Reduction.NONE]
    have hSu : (Reduction.SUM = Reduction.NONE ∧ self.shape.length = 2)
        = False := by
      simp [Reduction.SUM, Reduction.NONE]
    simp only [nll_loss_backward, hsh, hM, hSu, if_false, hcore]

/-- Witness for **C3**: batched `[2,3]` input, target class 0 at row 0 with
`ignore_index = 0`, NONE reduction, discharging the hypotheses concretely. -/
theorem nll_loss_backward_ignore_and_mean_witness :
    (_nll_loss_backward (⟨[2], fun _ => 1⟩ : Tensor ℚ)
        (⟨[2, 3], fun _ => 0⟩ : Tensor ℚ) (⟨[2], fun _ => 0⟩ : Tensor ℤ)
        none Reduction.NONE 0 (⟨[], fun _ => 5⟩ : Tensor ℚ)).data [0, 0]
      = 0 :=
  (nll_loss_backward_ignore_and_mean (⟨[2], fun _ => 1⟩ : Tensor ℚ)
      ⟨[2, 3], fun _ => 0⟩ ⟨[2], fun _ => 0⟩ none Reduction.NONE 0
      ⟨[], fun _ => 5⟩
      (_nll_loss_backward ⟨[2], fun _ => 1⟩ ⟨[2, 3], fun _ => 0⟩
        ⟨[2], fun _ => 0⟩ none Reduction.NONE 0 ⟨[], fun _ => 5⟩)
      rfl rfl).1 [0, 0] (by decide) rfl

end Spec2Proof
